import Mathlib

/-!
Verification development for the strict-JSON parsing core of
`pas7-studio/nestjs-strict-json` (src/core/parser.ts, src/core/utils.ts,
src/core/errors.ts).

The TypeScript code is shallowly embedded:

* A parsed JSON syntax tree (the `jsonc-parser` `Node` shape as consumed by
  `findDuplicateInNode`: object nodes with a list of properties, array nodes,
  scalar leaves) is the inductive `JsonTree`.  Numeric literal payloads are
  modelled as `Int` — no claim depends on numeric values, only on the shape
  of documents and on which scalar is the JSON `null`.
* `StrictJsonOptions` mirrors src/core/types.ts; absent optional fields are
  `none`, and the `?? default` / `=== true` / `!== false` accesses of the
  source are translated with `Option.getD`.
* The iterative walker `findDuplicateInNode` is embedded as a fuel-indexed
  loop over an explicit stack of frames, exactly mirroring the `while` loop
  of parser.ts lines 137-198 (reverse `for` iteration over an object's
  properties, check order blacklist -> dangerous key -> duplicate, children
  pushed with a fresh empty `seenKeys`).  The fuel is only a totality
  device: `walkTerminates` proves one unit of fuel per syntax-tree node is
  always enough.
* Raw input is modelled by `RawInput`: the UTF-8 text used as the cache key,
  its byte length (the `Buffer.byteLength` of the raw bytes) and the result
  of `jsonc-parser`'s `parseTree` / `JSON.parse` grammar check (`none` when
  the text is not valid JSON).  The text-level JSON grammar itself is not
  re-verified here; no claim is about the grammar.
* `JSON.parse`'s value construction is `jsValue`: later duplicate keys
  overwrite the value at the first occurrence's position, as JS object
  assignment does.
* The process-wide `LRUCache` and the orchestration of `parseStrictJson` /
  `parseStrictJsonAsync` are embedded with the cache state and the clock
  passed explicitly.  Error callbacks (`onError` etc.) are fire-and-forget
  side effects with no influence on results or state and are not modelled.
  The async variant's large-payload branch delegates to the separate
  `StreamingJsonParser` component; that component is abstracted as an
  explicit function parameter `streamFn` (theorems about the size check
  quantify over it, since the check precedes the branch).
-/

mutual
/-- A parsed JSON syntax tree, as consumed by the walker, doubling as the
decoded JSON value.  `Props` and `Elems` are specialised list types so that
all recursions are structural. -/
inductive JsonTree where
  | obj (props : Props)
  | arr (elems : Elems)
  | str (s : String)
  | num (n : Int)
  | bool (b : Bool)
  | null
/-- Ordered property list of an object node: (key, value) pairs. -/
inductive Props where
  | nil
  | cons (key : String) (val : JsonTree) (rest : Props)
/-- Ordered element list of an array node. -/
inductive Elems where
  | nil
  | cons (head : JsonTree) (rest : Elems)
end

mutual
/-- Number of syntax-tree nodes that ever become walker stack frames
(object, array and scalar value nodes; key nodes never become frames). -/
def sizeT : JsonTree → Nat
  | .obj props => 1 + sizePs props
  | .arr es => 1 + sizeEs es
  | _ => 1
def sizePs : Props → Nat
  | .nil => 0
  | .cons _ v rest => sizeT v + sizePs rest
def sizeEs : Elems → Nat
  | .nil => 0
  | .cons v rest => sizeT v + sizeEs rest
end

mutual
/-- Nesting height as the walker counts it: the largest `depth` field ever
pushed for a frame inside this node, relative to the node's own depth.
Every child (scalar leaves included) costs one level. -/
def heightT : JsonTree → Nat
  | .obj props => heightPs props
  | .arr es => heightEs es
  | _ => 0
def heightPs : Props → Nat
  | .nil => 0
  | .cons _ v rest => max (1 + heightT v) (heightPs rest)
def heightEs : Elems → Nat
  | .nil => 0
  | .cons v rest => max (1 + heightT v) (heightEs rest)
end

/-- Keys of a property list, in document order. -/
def keysOf : Props → List String
  | .nil => []
  | .cons k _ rest => k :: keysOf rest

/-- `true` iff the list of keys has no repetition. -/
def noDupKeys : List String → Bool
  | [] => true
  | k :: rest => !(rest.contains k) && noDupKeys rest

/-! ### Pattern matcher (src/core/utils.ts) -/

/-- Tokens of the anchored regular expression produced by `globToRegex`
(utils.ts lines 10-57).  A literal character stands for itself: escaping a
regex metacharacter produces a regex matching exactly that character, and
every unescaped passthrough character of the translation is not a
metacharacter. -/
inductive RTok where
  | lit (c : Char)
  | anyChar
  | starAny
  | starNotDot
  | starNotRBracket

/-- The translation loop of `globToRegex`, scanning the pattern left to
right: `**` becomes a match-anything run; a single `*` becomes `.*` at
pattern end, `[^.]*` before `.`, `[^]]*` before `]` and `[^.]*` otherwise;
`?` becomes `.`; anything else is literal. -/
def globToRegex : List Char → List RTok
  | [] => []
  | '*' :: '*' :: rest2 => .starAny :: globToRegex rest2
  | ['*'] => [.starAny]
  | '*' :: rest@('.' :: _) => .starNotDot :: globToRegex rest
  | '*' :: rest@(']' :: _) => .starNotRBracket :: globToRegex rest
  | '*' :: rest@(_ :: _) => .starNotDot :: globToRegex rest
  | '?' :: rest => .anyChar :: globToRegex rest
  | c :: rest => .lit c :: globToRegex rest

/-- Anchored matching of the compiled tokens against a character list: the
boolean semantics of `RegExp.test` on the `^...$` regex built by
`globToRegex` (greediness cannot change the boolean outcome). -/
def rmatch : List RTok → List Char → Bool
  | [], [] => true
  | [], _ :: _ => false
  | .lit _ :: _, [] => false
  | .lit c :: ts, x :: xs => c == x && rmatch ts xs
  | .anyChar :: _, [] => false
  | .anyChar :: ts, _ :: xs => rmatch ts xs
  | .starAny :: ts, [] => rmatch ts []
  | .starAny :: ts, x :: xs =>
    rmatch ts (x :: xs) || rmatch (.starAny :: ts) xs
  | .starNotDot :: ts, [] => rmatch ts []
  | .starNotDot :: ts, x :: xs =>
    rmatch ts (x :: xs) || (!(x == '.') && rmatch (.starNotDot :: ts) xs)
  | .starNotRBracket :: ts, [] => rmatch ts []
  | .starNotRBracket :: ts, x :: xs =>
    rmatch ts (x :: xs) || (!(x == ']') && rmatch (.starNotRBracket :: ts) xs)
termination_by ts xs => (ts.length, xs.length)

/-- `matchGlobPattern` of utils.ts lines 87-91. -/
def matchGlob (key pattern : List Char) : Bool :=
  rmatch (globToRegex pattern) key

/-- String-level wrapper used in claim statements. -/
def matchGlobPattern (key pattern : String) : Bool :=
  matchGlob key.toList pattern.toList

mutual
/-- `normalizeKeyForPatternMatching` (utils.ts 66-79): replace every
leftmost non-overlapping occurrence of `[digits]` by `[*]`, the semantics
of `replace(/\[\d+\]/g, "[*]")`. -/
def normalizeIdx : List Char → List Char
  | [] => []
  | c :: rest => if c == '[' then normDigits [] rest else c :: normalizeIdx rest
/-- Scanning after a `[`: `ds` holds the digits read so far (reversed).  A
`]` after at least one digit completes a match; any other outcome emits the
scanned text unchanged and resumes the search (digits cannot start a new
match, so resuming at the failing character is the regex's behaviour). -/
def normDigits : List Char → List Char → List Char
  | ds, [] => '[' :: ds.reverse
  | ds, c :: rest =>
    if c.isDigit then normDigits (c :: ds) rest
    else if c == ']' && !ds.isEmpty then '[' :: '*' :: ']' :: normalizeIdx rest
    else if c == '[' then ('[' :: ds.reverse) ++ normDigits [] rest
    else ('[' :: ds.reverse) ++ (c :: normalizeIdx rest)
end

/-- JS `key.split(".")`. -/
def splitOnDot : List Char → List (List Char)
  | [] => [[]]
  | c :: rest =>
    if c == '.' then [] :: splitOnDot rest
    else
      match splitOnDot rest with
      | h :: t => (c :: h) :: t
      | [] => [[c]]

/-- `keyParts[keyParts.length - 1]`: the text after the last `.`. -/
def lastDotPart (l : List Char) : List Char :=
  (splitOnDot l).getLastD []

/-- `pattern.split("**")[0]` when `pattern.includes("**")`, else `none`. -/
def beforeDoubleStar : List Char → Option (List Char)
  | [] => none
  | '*' :: '*' :: _ => some []
  | c :: rest => (beforeDoubleStar rest).map (c :: ·)

/-- JS `slice(0, -n)`. -/
def lcDropRight (l : List Char) (n : Nat) : List Char :=
  l.take (l.length - n)

/-- One whitelist-loop iteration of `isKeyAllowed` (utils.ts 116-171): the
disjunction, in source order, of the seven ways a single whitelist pattern
`p` can admit the key (`nk` = normalized key, `km` = key with array indices
wildcarded for glob matching).  The loop only sets a flag and breaks, so it
is `List.any` of this predicate. -/
def whitelistAdmits (nk km : List Char) (p : List Char) : Bool :=
  (p == nk || (nk ++ ['.']).isPrefixOf p || (nk ++ ['[']).isPrefixOf p) ||
  (['.', '*'].isSuffixOf p && nk == lcDropRight p 2) ||
  matchGlob km p ||
  (['*', '.'].isPrefixOf p && lastDotPart nk == p.drop 2) ||
  (match beforeDoubleStar p with
   | some h => h.isPrefixOf nk && h.length > 0
   | none => false) ||
  (match p.findIdx? (· == '*') with
   | some i =>
     if i > 0 then
       let pre := p.take i
       let np := if pre.getLast? == some '.' then lcDropRight pre 1 else pre
       nk == np || (np ++ ['.']).isPrefixOf nk || (np ++ ['[']).isPrefixOf nk
     else false
   | none => false) ||
  (!(p == nk) && (nk ++ ['.']).isPrefixOf p && ['.', '*'].isSuffixOf p)

/-- One iteration of the first blacklist loop (utils.ts 224-241): any of
the three rejection conditions. -/
def blacklistRejects (nk km : List Char) (p : List Char) : Bool :=
  (['*', '.'].isPrefixOf p && lastDotPart nk == p.drop 2) ||
  (!(p.contains '*') && (['.'] ++ p).isSuffixOf nk) ||
  matchGlob km p

/-- One iteration of the second blacklist loop (utils.ts 245-254). -/
def blacklistRejectsLast (nk p : List Char) : Bool :=
  ['*', '.'].isPrefixOf p && lastDotPart nk == p.drop 2

/-- The `normalizedKey` of `isKeyAllowed` (utils.ts 102): the key with a
leading `$.` removed. -/
def normKey (key : String) : List Char :=
  if ['$', '.'].isPrefixOf key.toList then key.toList.drop 2 else key.toList

/-- `isKeyAllowed` (utils.ts 100-261), faithful to the source's control
flow.  `none` models an absent (`undefined`) list. -/
def isKeyAllowed (key : String) (whitelist blacklist : Option (List String)) : Bool :=
  let nk : List Char := normKey key
  let km := normalizeIdx nk
  let wlOk : Bool :=
    match whitelist with
    | none => true
    | some wl =>
      if wl.isEmpty then false else wl.any (fun p => whitelistAdmits nk km p.toList)
  if !wlOk then false
  else
    match blacklist with
    | none => true
    | some bl =>
      if bl.isEmpty then true
      else
        let hasNonWildcardWl : Bool :=
          match whitelist with
          | some wl => wl.any (fun w => !(w.toList.contains '*'))
          | none => false
        let matchesNonWildcardWl : Bool :=
          match whitelist with
          | some wl =>
            wl.any (fun w =>
              !(w.toList.contains '*') &&
                (nk == w.toList || (w.toList ++ ['.']).isPrefixOf nk))
          | none => false
        if hasNonWildcardWl && matchesNonWildcardWl then true
        else
          let matchesWildcardWl : Bool :=
            match whitelist with
            | some wl =>
              wl.any (fun w => w.toList.contains '*' && matchGlob km w.toList)
            | none => false
          if matchesWildcardWl then !(bl.any (fun p => matchGlob km p.toList))
          else if bl.any (fun p => blacklistRejects nk km p.toList) then false
          else if bl.any (fun p => blacklistRejectsLast nk p.toList) then false
          else true

mutual
/-- `true` iff no object node anywhere in the tree repeats a key within its
own immediate property list. -/
def noLocalDup : JsonTree → Bool
  | .obj props => noDupKeys (keysOf props) && noLocalDupPs props
  | .arr es => noLocalDupEs es
  | _ => true
def noLocalDupPs : Props → Bool
  | .nil => true
  | .cons _ v rest => noLocalDup v && noLocalDupPs rest
def noLocalDupEs : Elems → Bool
  | .nil => true
  | .cons v rest => noLocalDup v && noLocalDupEs rest
end

/-! ### Options (src/core/types.ts) and the validating walker (parser.ts) -/

/-- `StrictJsonOptions` of src/core/types.ts.  Absent (`undefined`) fields
are `none`.  Numeric options are modelled as `Nat` (they are byte counts,
depths, entry counts and milliseconds).  The `onX` error callbacks and the
unused `ignoreCase` / `chunkSize` fields are not modelled: callbacks are
invoked purely for their side effects, their exceptions are swallowed, and
they never alter results or state. -/
structure StrictJsonOptions where
  maxBodySizeBytes : Option Nat := none
  enablePrototypePollutionProtection : Option Bool := none
  dangerousKeys : Option (List String) := none
  whitelist : Option (List String) := none
  blacklist : Option (List String) := none
  maxDepth : Option Nat := none
  enableStreaming : Option Bool := none
  streamingThreshold : Option Nat := none
  lazyMode : Option Bool := none
  lazyModeThreshold : Option Nat := none
  lazyModeDepthLimit : Option Nat := none
  lazyModeSkipPrototype : Option Bool := none
  lazyModeSkipWhitelist : Option Bool := none
  lazyModeSkipBlacklist : Option Bool := none
  enableCache : Option Bool := none
  cacheSize : Option Nat := none
  cacheTTL : Option Nat := none
  enableFastPath : Option Bool := none

/-- The configuration `findDuplicateInNode` precomputes before its loop
(parser.ts 105-130). -/
structure WalkCtx where
  shouldCheckBlacklist : Bool
  shouldCheckPrototype : Bool
  dangerousKeysSet : List String
  whitelist : Option (List String)
  blacklist : Option (List String)
  effectiveDepthLimit : Nat

/-- Precomputation of parser.ts 105-130 (`?? default` fields, the
`shouldCheck*` flags, and the effective depth limit). -/
def mkWalkCtx (o : StrictJsonOptions) : WalkCtx :=
  let lazyMode := o.lazyMode.getD false
  let lazyModeDepthLimit := o.lazyModeDepthLimit.getD 10
  let lazyModeSkipPrototype := o.lazyModeSkipPrototype.getD true
  let lazyModeSkipBlacklist := o.lazyModeSkipBlacklist.getD false
  let maxDepth := o.maxDepth.getD 20
  let enableProtection := o.enablePrototypePollutionProtection.getD true
  let shouldCheckPrototype := enableProtection && !(lazyMode && lazyModeSkipPrototype)
  let hasWhitelistOrBlacklist := o.whitelist.isSome || o.blacklist.isSome
  { shouldCheckBlacklist := hasWhitelistOrBlacklist && !(lazyMode && lazyModeSkipBlacklist)
    shouldCheckPrototype := shouldCheckPrototype
    dangerousKeysSet :=
      if shouldCheckPrototype then
        o.dangerousKeys.getD ["__proto__", "constructor", "prototype"]
      else []
    whitelist := o.whitelist
    blacklist := o.blacklist
    effectiveDepthLimit := if lazyMode then min maxDepth lazyModeDepthLimit else maxDepth }

/-- A unit of the walker's explicit stack (parser.ts 92-97). -/
structure StackFrame where
  node : JsonTree
  path : String
  depth : Nat
  seenKeys : List String

/-- Outcome of one walker pass: the returned value (`null` = `ok`, a found
duplicate) or the thrown typed error (DepthLimitError,
PrototypePollutionError, or the InvalidJsonError raised for a key rejected
by the whitelist/blacklist policy). -/
inductive WalkResult where
  | ok
  | dup (key path : String)
  | errDepth (currentDepth maxDepth : Nat)
  | errProto (key path : String)
  | errKeyNotAllowed (key path : String)
deriving DecidableEq

def Props.toList : Props → List (String × JsonTree)
  | .nil => []
  | .cons k v rest => (k, v) :: Props.toList rest

def Elems.toList : Elems → List JsonTree
  | .nil => []
  | .cons v rest => v :: Elems.toList rest

/-- The `for` loop over an object's properties (parser.ts 147-181).  `l` is
the property list in the loop's iteration order — document order REVERSED,
because the source iterates `i` from `children.length - 1` down to `0`;
`seen` is the popped frame's `seenKeys`; `stack` is the walker stack below
the popped frame, onto which the loop pushes one child frame per property,
each with a fresh empty `seenKeys`.  Check order inside one iteration:
whitelist/blacklist policy, then dangerous key, then duplicate. -/
def processProps (ctx : WalkCtx) (curPath : String) (curDepth : Nat) :
    List (String × JsonTree) → List String → List StackFrame →
    WalkResult ⊕ List StackFrame
  | [], _, stack => .inr stack
  | (key, val) :: restProps, seen, stack =>
    let keyPath := curPath ++ "." ++ key
    if ctx.shouldCheckBlacklist && !(isKeyAllowed keyPath ctx.whitelist ctx.blacklist) then
      .inl (.errKeyNotAllowed key keyPath)
    else if ctx.shouldCheckPrototype && ctx.dangerousKeysSet.contains key then
      .inl (.errProto key keyPath)
    else if seen.contains key then
      .inl (.dup key keyPath)
    else
      processProps ctx curPath curDepth restProps (key :: seen)
        ({ node := val, path := keyPath, depth := curDepth + 1, seenKeys := [] } :: stack)

/-- Frames an array node pushes (parser.ts 185-197): the source iterates
`i` from the back pushing `path[i]` frames, so after the loop the stack
holds the elements in document order on top of `stack`; this builds that
final stack directly. -/
def elemFrames (path : String) (depth : Nat) : List JsonTree → Nat → List StackFrame
  | [], _ => []
  | v :: rest, i =>
    { node := v, path := path ++ "[" ++ toString i ++ "]", depth := depth + 1,
      seenKeys := [] } :: elemFrames path depth rest (i + 1)

/-- The walker's `while (stack.length > 0)` loop (parser.ts 137-198), as a
fuel-indexed step function: `none` only when fuel runs out (the theorem
`walkTerminates` below shows one unit of fuel per node always suffices).
A popped frame is first checked against the depth limit — a hard stop
regardless of what is left on the stack — and then dispatched on its node
kind. -/
def walkLoop (ctx : WalkCtx) : Nat → List StackFrame → Option WalkResult
  | 0, _ => none
  | _ + 1, [] => some .ok
  | fuel + 1, f :: rest =>
    if f.depth > ctx.effectiveDepthLimit then
      some (.errDepth f.depth ctx.effectiveDepthLimit)
    else
      match f.node with
      | .obj props =>
        match processProps ctx f.path f.depth props.toList.reverse f.seenKeys rest with
        | .inl r => some r
        | .inr stack2 => walkLoop ctx fuel stack2
      | .arr es => walkLoop ctx fuel (elemFrames f.path f.depth es.toList 0 ++ rest)
      | _ => walkLoop ctx fuel rest

/-- Total node count of a stack: the walker's termination measure. -/
def stackSize (l : List StackFrame) : Nat :=
  (l.map (fun f => sizeT f.node)).sum

/-- `findDuplicateInNode` (parser.ts 99-201): run the loop from a single
root frame.  The fuel `sizeT node + 1` is sufficient (`walkTerminates`),
so the `.getD .ok` default is never taken. -/
def findDuplicateInNode (node : JsonTree) (path : String := "$")
    (options : StrictJsonOptions := {}) (depth : Nat := 0) : WalkResult :=
  (walkLoop (mkWalkCtx options) (sizeT node + 1)
    [{ node := node, path := path, depth := depth, seenKeys := [] }]).getD .ok

/-! ### `JSON.parse` value construction -/

/-- JS object property assignment `o[k] = v`: overwrite in place when `k`
is present (keeping its position), else append. -/
def setPropP : Props → String → JsonTree → Props
  | .nil, k, v => .cons k v .nil
  | .cons k0 v0 rest, k, v =>
    if k0 == k then .cons k0 v rest else .cons k0 v0 (setPropP rest k v)

mutual
/-- The value `JSON.parse` builds from a syntax tree: objects are built by
sequential property assignment, so a duplicated key keeps the position of
its first occurrence and the value of its last. -/
def jsValue : JsonTree → JsonTree
  | .obj props => .obj (jsObj props .nil)
  | .arr es => .arr (jsArr es)
  | .str s => .str s
  | .num n => .num n
  | .bool b => .bool b
  | .null => .null
def jsObj : Props → Props → Props
  | .nil, acc => acc
  | .cons k v rest, acc => jsObj rest (setPropP acc k (jsValue v))
def jsArr : Elems → Elems
  | .nil => .nil
  | .cons v rest => .cons (jsValue v) (jsArr rest)
end

/-- JS `typeof x === "object" && x !== null`. -/
def isObjLike : JsonTree → Bool
  | .obj _ => true
  | .arr _ => true
  | _ => false

mutual
/-- The recursive `checkPrototypePollution` of `parseWithFastPath`
(parser.ts 240-255): scans own enumerable keys against the fixed set
`{__proto__, constructor, prototype}` (the fast path ignores
`options.dangerousKeys`) and recurses into object-typed non-null values.
Array indices are never dangerous names, so arrays only recurse. -/
def fastPathDanger : JsonTree → Bool
  | .obj props => fastPathDangerPs props
  | .arr es => fastPathDangerEs es
  | _ => false
def fastPathDangerPs : Props → Bool
  | .nil => false
  | .cons k v rest =>
    (["__proto__", "constructor", "prototype"] : List String).contains k ||
      (isObjLike v && fastPathDanger v) || fastPathDangerPs rest
def fastPathDangerEs : Elems → Bool
  | .nil => false
  | .cons v rest => (isObjLike v && fastPathDanger v) || fastPathDangerEs rest
end

/-! ### Result cache (parser.ts 16-86) -/

/-- One cache slot: `{ value, timestamp }`. -/
structure CacheEntry where
  value : JsonTree
  timestamp : Nat

/-- The `LRUCache` instance: a JS `Map` modelled as an association list in
the map's iteration order — oldest-inserted / least-recently-promoted
first, most-recently-used last.  Keys are unique (a `Map` invariant;
established here for every state reachable from an empty cache). -/
structure LRUCache where
  entries : List (String × CacheEntry)
  maxSize : Nat
  ttl : Nat

/-- `Map.get`. -/
def lookupEntry (l : List (String × CacheEntry)) (k : String) : Option CacheEntry :=
  (l.find? (fun p => p.1 == k)).map (fun p => p.2)

/-- `Map.delete` (keys are unique, so dropping every binding of `k` agrees
with deleting the one binding). -/
def eraseEntry (l : List (String × CacheEntry)) (k : String) :
    List (String × CacheEntry) :=
  l.filter (fun p => !(p.1 == k))

/-- `Map.set`: overwrite in place when present (iteration order keeps the
old position), else append at the most-recent end. -/
def mapSet (l : List (String × CacheEntry)) (k : String) (e : CacheEntry) :
    List (String × CacheEntry) :=
  if l.any (fun p => p.1 == k) then
    l.map (fun p => if p.1 == k then (k, e) else p)
  else l ++ [(k, e)]

/-- `LRUCache.get` (parser.ts 27-41): absent keys miss; an entry older than
`ttl` milliseconds is deleted and reported absent; a hit re-inserts the
same entry (same timestamp) at the most-recently-used end and returns its
value. -/
def LRUCache.get (c : LRUCache) (now : Nat) (k : String) :
    Option JsonTree × LRUCache :=
  match lookupEntry c.entries k with
  | none => (none, c)
  | some e =>
    if now - e.timestamp > c.ttl then
      (none, { c with entries := eraseEntry c.entries k })
    else
      (some e.value, { c with entries := eraseEntry c.entries k ++ [(k, e)] })

/-- `LRUCache.set` (parser.ts 43-53): at capacity, the entry at the head of
the iteration order is deleted first (`keys().next()`), then the key is
written with a fresh timestamp. -/
def LRUCache.set (c : LRUCache) (now : Nat) (k : String) (v : JsonTree) : LRUCache :=
  let es :=
    if c.entries.length ≥ c.maxSize then
      match c.entries with
      | [] => []
      | _ :: rest => rest
    else c.entries
  { c with entries := mapSet es k { value := v, timestamp := now } }

/-- `LRUCache.clear`. -/
def LRUCache.clear (c : LRUCache) : LRUCache :=
  { c with entries := [] }

/-- A fresh cache (`new LRUCache(maxSize, ttl)`). -/
def emptyCache (maxSize ttl : Nat) : LRUCache :=
  { entries := [], maxSize := maxSize, ttl := ttl }

/-- One external cache operation, for stating invariants over arbitrary
call sequences. -/
inductive CacheOp where
  | get (now : Nat) (k : String)
  | set (now : Nat) (k : String) (v : JsonTree)
  | clear

def applyOp (c : LRUCache) : CacheOp → LRUCache
  | .get now k => (LRUCache.get c now k).2
  | .set now k v => LRUCache.set c now k v
  | .clear => LRUCache.clear c

def applyOps (c : LRUCache) : List CacheOp → LRUCache
  | [] => c
  | op :: rest => applyOps (applyOp c op) rest

/-! ### Entry points (parser.ts 343-616) -/

/-- A raw input to `parseStrictJson`: the decoded UTF-8 text (the cache
key `jsonStr`), the byte length of the underlying bytes
(`buf.byteLength`), and the syntax tree produced by `parseTree` /
accepted by `JSON.parse` (`none` when the text is not valid JSON — the
strict `parseTree` flags make the two grammars agree). -/
structure RawInput where
  text : String
  byteLength : Nat
  tree : Option JsonTree

/-- The typed errors of src/core/errors.ts as thrown by the entry points.
`invalidJson` is the catch-all `InvalidJsonError("Invalid JSON")`;
`keyNotAllowed` is the InvalidJsonError raised for a policy-rejected key
(both carry the code STRICT_JSON_INVALID_JSON). -/
inductive PError where
  | bodyTooLarge (maxBodySizeBytes : Nat)
  | duplicateKey (path key : String)
  | invalidJson
  | keyNotAllowed (key path : String)
  | protoPollution (key path : String)
  | depthLimit (currentDepth maxDepth : Nat)
deriving DecidableEq

/-- The stable `code` field of the corresponding error class. -/
def errCode : PError → String
  | .bodyTooLarge _ => "STRICT_JSON_BODY_TOO_LARGE"
  | .duplicateKey _ _ => "STRICT_JSON_DUPLICATE_KEY"
  | .invalidJson => "STRICT_JSON_INVALID_JSON"
  | .keyNotAllowed _ _ => "STRICT_JSON_INVALID_JSON"
  | .protoPollution _ _ => "STRICT_JSON_PROTOTYPE_POLLUTION"
  | .depthLimit _ _ => "STRICT_JSON_DEPTH_LIMIT"

/-- `findDuplicateKeysInJson` (parser.ts 203-231): on a tree-parse failure
return "no duplicate" (the caller then surfaces the decode failure);
otherwise run the walker, handing back its returned duplicate or
propagating its thrown typed error. -/
def findDuplicateKeysInJson (raw : RawInput) (o : StrictJsonOptions) :
    Except PError (Option (String × String)) :=
  match raw.tree with
  | none => .ok none
  | some t =>
    match findDuplicateInNode t "$" o 0 with
    | .ok => .ok none
    | .dup k p => .ok (some (k, p))
    | .errDepth c m => .error (.depthLimit c m)
    | .errProto k p => .error (.protoPollution k p)
    | .errKeyNotAllowed k p => .error (.keyNotAllowed k p)

/-- `shouldUseStreamingForPayload` (parser.ts 266-282). -/
def shouldUseStreamingForPayload (raw : RawInput) (o : StrictJsonOptions) : Bool :=
  if o.enableStreaming == some false then false
  else raw.byteLength ≥ o.streamingThreshold.getD (100 * 1024)

/-- `parseWithFastPath` (parser.ts 234-263): plain `JSON.parse` plus the
recursive fixed-set dangerous-key scan; no duplicate-key, policy or depth
checks.  Every failure makes the caller fall back to the full parser, so
the failure detail is irrelevant (`none`). -/
def parseWithFastPath (raw : RawInput) (o : StrictJsonOptions) : Option JsonTree :=
  match raw.tree with
  | none => none
  | some t =>
    let parsed := jsValue t
    if o.enablePrototypePollutionProtection.getD true && fastPathDanger parsed then none
    else some parsed

/-- The `effectiveOptions` override for (auto-)lazy mode (parser.ts
418-425). -/
def lazyOverride (o : StrictJsonOptions) : StrictJsonOptions :=
  { o with
    lazyMode := some true
    lazyModeDepthLimit := some (o.lazyModeDepthLimit.getD 10)
    lazyModeSkipPrototype := some (o.lazyModeSkipPrototype.getD true)
    lazyModeSkipWhitelist := some (o.lazyModeSkipWhitelist.getD true)
    lazyModeSkipBlacklist := some (o.lazyModeSkipBlacklist.getD false) }

/-- Everything the synchronous `parseStrictJson` does after the size check
and cache probe (parser.ts 378-443): optional fast path, then — for large
payloads — the synchronous streaming branch, which is a bare `JSON.parse`
with no walker validation at all, and otherwise the normal path of
(auto-lazy) walker validation followed by decode. -/
def parseCore (raw : RawInput) (o : StrictJsonOptions) : Except PError JsonTree :=
  let useStreaming := shouldUseStreamingForPayload raw o
  let fastResult : Option JsonTree :=
    if o.enableFastPath.getD false && !useStreaming then parseWithFastPath raw o
    else none
  match fastResult with
  | some v => .ok v
  | none =>
    if useStreaming then
      match raw.tree with
      | some t => .ok (jsValue t)
      | none => .error .invalidJson
    else
      let shouldUseLazyMode :=
        o.lazyMode.getD false || raw.byteLength ≥ o.lazyModeThreshold.getD (100 * 1024)
      let effOpts := if shouldUseLazyMode then lazyOverride o else o
      match findDuplicateKeysInJson raw effOpts with
      | .error e => .error e
      | .ok (some (k, p)) => .error (.duplicateKey p k)
      | .ok none =>
        match raw.tree with
        | some t => .ok (jsValue t)
        | none => .error .invalidJson

/-- The cache reconfiguration and probe of parser.ts 363-376: when caching
is enabled the global cache's `maxSize`/`ttl` are overwritten from the
options and `get` is consulted.  A stored JSON `null` value is
indistinguishable from a miss (`cached !== null`), so it falls through —
after `get` has already promoted the entry. -/
def cacheProbe (raw : RawInput) (o : StrictJsonOptions) (c : LRUCache) (now : Nat) :
    Option JsonTree × LRUCache :=
  if o.enableCache.getD true then
    let c0 := { c with maxSize := o.cacheSize.getD 1000, ttl := o.cacheTTL.getD 60000 }
    match LRUCache.get c0 now raw.text with
    | (some v, c1) =>
      match v with
      | .null => (none, c1)
      | _ => (some v, c1)
    | (none, c1) => (none, c1)
  else (none, c)

/-- `options.maxBodySizeBytes` check (parser.ts 350-359 / 490-499):
`some m` = the size check fails against limit `m`. -/
def sizeCheckFails (raw : RawInput) (o : StrictJsonOptions) : Option Nat :=
  match o.maxBodySizeBytes with
  | some m => if raw.byteLength > m then some m else none
  | none => none

/-- Shared orchestration after the size check: probe the cache, return a
hit immediately, otherwise run the core and store the result on success
(every successful branch of the source stores; no failing branch does). -/
def afterSizeCheck (core : RawInput → StrictJsonOptions → Except PError JsonTree)
    (raw : RawInput) (o : StrictJsonOptions) (c : LRUCache) (now : Nat) :
    Except PError JsonTree × LRUCache :=
  let probed := cacheProbe raw o c now
  match probed.1 with
  | some v => (.ok v, probed.2)
  | none =>
    match core raw o with
    | .ok v =>
      (.ok v,
        if o.enableCache.getD true then LRUCache.set probed.2 now raw.text v
        else probed.2)
    | .error e => (.error e, probed.2)

/-- `parseStrictJson` (parser.ts 343-480), with the process-wide cache and
the clock passed explicitly. -/
def parseStrictJson (raw : RawInput) (o : StrictJsonOptions) (c : LRUCache)
    (now : Nat) : Except PError JsonTree × LRUCache :=
  match sizeCheckFails raw o with
  | some m => (.error (.bodyTooLarge m), c)
  | none => afterSizeCheck parseCore raw o c now

/-- `parseStrictJsonAsync`'s core (parser.ts 524-579) differs from the
synchronous core only in the streaming branch, which runs the separate
`StreamingJsonParser` component (`parseLargePayload`, parser.ts 285-310).
That component lives in src/core/streaming-parser.ts and is abstracted as
the parameter `streamFn`; it rejects only with plain `Error`s, which the
entry point's catch-all converts to `InvalidJsonError("Invalid JSON")`. -/
def parseCoreAsync (streamFn : RawInput → StrictJsonOptions → Option JsonTree)
    (raw : RawInput) (o : StrictJsonOptions) : Except PError JsonTree :=
  let useStreaming := shouldUseStreamingForPayload raw o
  let fastResult : Option JsonTree :=
    if o.enableFastPath.getD false && !useStreaming then parseWithFastPath raw o
    else none
  match fastResult with
  | some v => .ok v
  | none =>
    if useStreaming then
      match streamFn raw o with
      | some v => .ok v
      | none => .error .invalidJson
    else
      let shouldUseLazyMode :=
        o.lazyMode.getD false || raw.byteLength ≥ o.lazyModeThreshold.getD (100 * 1024)
      let effOpts := if shouldUseLazyMode then lazyOverride o else o
      match findDuplicateKeysInJson raw effOpts with
      | .error e => .error e
      | .ok (some (k, p)) => .error (.duplicateKey p k)
      | .ok none =>
        match raw.tree with
        | some t => .ok (jsValue t)
        | none => .error .invalidJson

/-- `parseStrictJsonAsync` (parser.ts 483-616). -/
def parseStrictJsonAsync (streamFn : RawInput → StrictJsonOptions → Option JsonTree)
    (raw : RawInput) (o : StrictJsonOptions) (c : LRUCache) (now : Nat) :
    Except PError JsonTree × LRUCache :=
  match sizeCheckFails raw o with
  | some m => (.error (.bodyTooLarge m), c)
  | none => afterSizeCheck (parseCoreAsync streamFn) raw o c now

/-! ### Reference traversal functions for duplicate ordering (spec side) -/

mutual
/-- Modelled from the spec's words for P2: the first duplicate key in
document (depth-first, left-to-right) order, together with its
document-order path; `seen` carries the keys already read in the current
object, and values are entered before later siblings are read. -/
def docFirstDup : JsonTree → String → Option (String × String)
  | .obj props, path => docFirstDupPs props path []
  | .arr es, path => docFirstDupEs es path 0
  | _, _ => none
def docFirstDupPs : Props → String → List String → Option (String × String)
  | .nil, _, _ => none
  | .cons k v rest, path, seen =>
    if seen.contains k then some (k, path ++ "." ++ k)
    else
      match docFirstDup v (path ++ "." ++ k) with
      | some r => some r
      | none => docFirstDupPs rest path (k :: seen)
def docFirstDupEs : Elems → String → Nat → Option (String × String)
  | .nil, _, _ => none
  | .cons v rest, path, i =>
    match docFirstDup v (path ++ "[" ++ toString i ++ "]") with
    | some r => some r
    | none => docFirstDupEs rest path (i + 1)
end

/-- Reverse scan of one object's immediate keys for a repeat, mirroring the
walker's right-to-left `for` loop (applied to the reversed property
list). -/
def revScanDup (path : String) : List (String × JsonTree) → List String →
    Option (String × String)
  | [], _ => none
  | (k, _) :: rest, seen =>
    if seen.contains k then some (k, path ++ "." ++ k)
    else revScanDup path rest (k :: seen)

mutual
/-- Reference recursion for the order the walker actually uses: all
immediate keys of an object are checked (right to left) before any
descent, and the property values / array elements are then visited
depth-first, left to right. -/
def revFirstDup : JsonTree → String → Option (String × String)
  | .obj props, path =>
    match revScanDup path props.toList.reverse [] with
    | some r => some r
    | none => revChildren props path
  | .arr es, path => revElems es path 0
  | _, _ => none
def revChildren : Props → String → Option (String × String)
  | .nil, _ => none
  | .cons k v rest, path =>
    match revFirstDup v (path ++ "." ++ k) with
    | some r => some r
    | none => revChildren rest path
def revElems : Elems → String → Nat → Option (String × String)
  | .nil, _, _ => none
  | .cons v rest, path, i =>
    match revFirstDup v (path ++ "[" ++ toString i ++ "]") with
    | some r => some r
    | none => revElems rest path (i + 1)
end

/-! ### Auxiliary definitions used by the theorems -/

/-- Is this decoded value the JS literal `null`?  (`cached !== null`.) -/
def isNullTree : JsonTree → Bool
  | .null => true
  | _ => false

/-- Did the walker return a located duplicate (as opposed to a clean pass
or a thrown error)? -/
def WalkResult.isDup : WalkResult → Bool
  | .dup _ _ => true
  | _ => false

/-- The frame `processProps` pushes for one property value. -/
def childFrame (path : String) (depth : Nat) (kv : String × JsonTree) : StackFrame :=
  { node := kv.2, path := path ++ "." ++ kv.1, depth := depth + 1, seenKeys := [] }

/-- The first duplicate (in the walker's own order) found by running
`revFirstDup` over the frames of a stack, in order. -/
def stackSpec : List StackFrame → Option (String × String)
  | [] => none
  | f :: rest =>
    match revFirstDup f.node f.path with
    | some r => some r
    | none => stackSpec rest

/-- `{"a":1,"b":2,"a":3,"b":4}` — two distinct duplicated keys. -/
def sampleDupPair : JsonTree :=
  .obj (.cons "a" (.num 1) (.cons "b" (.num 2) (.cons "a" (.num 3)
    (.cons "b" (.num 4) .nil))))

/-- `{"x":{"a":1,"a":2},"b":1,"b":2}` — a nested duplicate occurring
before an outer one in document order. -/
def sampleNested : JsonTree :=
  .obj (.cons "x" (.obj (.cons "a" (.num 1) (.cons "a" (.num 2) .nil)))
    (.cons "b" (.num 1) (.cons "b" (.num 2) .nil)))

/-- `{"a":{"b":1},"c":{"b":2}}` — the same key once in each of two sibling
objects (spec example 2). -/
def sampleSiblings : JsonTree :=
  .obj (.cons "a" (.obj (.cons "b" (.num 1) .nil))
    (.cons "c" (.obj (.cons "b" (.num 2) .nil)) .nil))

/-- `{"a":{"b":1}}` — nesting height 2. -/
def sampleDeep : JsonTree :=
  .obj (.cons "a" (.obj (.cons "b" (.num 1) .nil)) .nil)

/-- A large raw input: the 102 400-byte text `{"a":1,"a":2}` followed by
102 387 spaces (whitespace padding keeps it valid JSON), meeting the
default 100 KB `streamingThreshold`.  Only the length, the cache key and
the parse tree of the text enter the model. -/
def bigDupInput : RawInput :=
  { text := "\x7b\"a\":1,\"a\":2\x7d (padded to 102400 bytes)"
    byteLength := 102400
    tree := some (.obj (.cons "a" (.num 1) (.cons "a" (.num 2) .nil))) }

/-- The four-byte input `null`: valid JSON whose decoded value is the JSON
`null`. -/
def nullInput : RawInput :=
  { text := "null", byteLength := 4, tree := some .null }

/-- The input `{"a":1}`. -/
def smallObjInput : RawInput :=
  { text := "\x7b\"a\":1\x7d", byteLength := 7
    tree := some (.obj (.cons "a" (.num 1) .nil)) }

/-- The three-byte input `{"x` — not valid JSON. -/
def invalidInput : RawInput :=
  { text := "\x7b\"x", byteLength := 3, tree := none }

/-! ## Claim theorems -/

/-- C7: for every input whose byte length exceeds a configured
`maxBodySizeBytes`, both `parseStrictJson` and `parseStrictJsonAsync` fail
with BodyTooLargeError (code `STRICT_JSON_BODY_TOO_LARGE`) and leave the
cache state untouched — no cache lookup, tree parse or validation happens.
The input is arbitrary (in particular its `tree` may be `none`, i.e. the
text need not be valid JSON) and so is the async streaming component
`streamFn`: the size check precedes them all. -/
theorem c7_body_too_large_first (raw : RawInput) (o : StrictJsonOptions)
    (c : LRUCache) (now m : Nat)
    (streamFn : RawInput → StrictJsonOptions → Option JsonTree)
    (hm : o.maxBodySizeBytes = some m) (hgt : raw.byteLength > m) :
    parseStrictJson raw o c now = (.error (.bodyTooLarge m), c) ∧
    parseStrictJsonAsync streamFn raw o c now = (.error (.bodyTooLarge m), c) ∧
    errCode (.bodyTooLarge m) = "STRICT_JSON_BODY_TOO_LARGE" := by
  have hsz : sizeCheckFails raw o = some m := by
    simp [sizeCheckFails, hm, hgt]
  refine ⟨?_, ?_, rfl⟩ <;> simp [parseStrictJson, parseStrictJsonAsync, hsz]

/-- Witness for C7: a three-byte non-JSON input against a 2-byte limit. -/
theorem c7_body_too_large_first_witness :
    parseStrictJson invalidInput { maxBodySizeBytes := some 2 }
      (emptyCache 1000 60000) 0 =
      (.error (.bodyTooLarge 2), emptyCache 1000 60000) ∧
    parseStrictJsonAsync (fun _ _ => none) invalidInput
      { maxBodySizeBytes := some 2 } (emptyCache 1000 60000) 0 =
      (.error (.bodyTooLarge 2), emptyCache 1000 60000) ∧
    errCode (.bodyTooLarge 2) = "STRICT_JSON_BODY_TOO_LARGE" :=
  c7_body_too_large_first invalidInput _ _ 0 2 _ rfl (by decide)

/-- C1 (code bug): with fast path disabled (the default), a payload at the
default 100 KB streaming threshold containing a duplicate key parses
successfully under default options — the synchronous streaming branch of
`parseStrictJson` is a bare `JSON.parse` that skips the walker (and with it
all duplicate-key and deny-list detection) — even though the walker itself
rejects precisely this document.  The decoded value silently keeps the
last occurrence. -/
theorem c1_streaming_branch_skips_checks :
    (parseStrictJson bigDupInput {} (emptyCache 1000 60000) 0).1 =
      .ok (.obj (.cons "a" (.num 2) .nil)) ∧
    noLocalDup (.obj (.cons "a" (.num 1) (.cons "a" (.num 2) .nil))) = false ∧
    102400 ≤ bigDupInput.byteLength ∧
    findDuplicateInNode (.obj (.cons "a" (.num 1) (.cons "a" (.num 2) .nil)))
      "$" {} 0 = .dup "a" "$.a" :=
  ⟨rfl, rfl, by decide, rfl⟩

/-- C3 (counterexample): a single `*` immediately before the separator `.`
does NOT match across segments: `a.*.c` rejects `a.b.x.c` (where `*` would
have to match `b.x`) while accepting the single-segment `a.b.c`; by
contrast the same key matches `a.*` (star at pattern end) and a dotted
array text matches `a[*]` (star before `]`) — the cross-segment behaviour
exists only in those two positions. -/
theorem c3_counterexample :
    matchGlobPattern "a.b.x.c" "a.*.c" = false ∧
    matchGlobPattern "a.b.c" "a.*.c" = true ∧
    matchGlobPattern "a.b.x.c" "a.*" = true ∧
    matchGlobPattern "a[x.y]" "a[*]" = true := by
  refine ⟨?_, ?_, ?_, ?_⟩ <;> simp [matchGlobPattern, matchGlob, globToRegex, rmatch]

/-- C3 (amended): a single `*` positioned immediately before the separator
`.` compiles to the dot-excluding token `[^.]*` — exactly as in the default
position — so it matches only a run of characters excluding `.` (one path
segment); only at pattern end (`.*`) or immediately before `]` (`[^]]*`)
may a single `*` match across segments.  Conjuncts: the compilation facts,
the semantic guarantee that whatever `[^.]*` consumes contains no dot, and
that the end-of-pattern token matches everything. -/
theorem c3_amended :
    (∀ rest, globToRegex ('*' :: '.' :: rest) = .starNotDot :: globToRegex ('.' :: rest)) ∧
    (∀ rest, globToRegex ('*' :: ']' :: rest) = .starNotRBracket :: globToRegex (']' :: rest)) ∧
    globToRegex ['*'] = [.starAny] ∧
    (∀ ts xs, rmatch (.starNotDot :: ts) xs = true →
      ∃ u v, xs = u ++ v ∧ (∀ ch ∈ u, ch ≠ '.') ∧ rmatch ts v = true) ∧
    (∀ xs, rmatch [.starAny] xs = true) := by
  refine ⟨fun rest => by simp [globToRegex], fun rest => by simp [globToRegex],
    by simp [globToRegex], ?_, ?_⟩
  · intro ts xs
    induction xs with
    | nil =>
      intro h
      refine ⟨[], [], rfl, by simp, ?_⟩
      simpa [rmatch] using h
    | cons x xs ih =>
      intro h
      rw [rmatch] at h
      rcases Bool.or_eq_true_iff.mp h with h1 | h2
      · exact ⟨[], x :: xs, rfl, by simp, h1⟩
      · rcases Bool.and_eq_true_iff.mp h2 with ⟨hx, hrec⟩
        rcases ih hrec with ⟨u, v, huv, hnd, hv⟩
        refine ⟨x :: u, v, by simp [huv], ?_, hv⟩
        intro ch hch
        rcases List.mem_cons.mp hch with rfl | hm
        · simpa using hx
        · exact hnd ch hm
  · intro xs
    induction xs with
    | nil => simp [rmatch]
    | cons x xs ih => rw [rmatch]; simp [ih]

/-- Witness for C3 (amended): concrete discharges — `[^.]*` consuming `bx`
inside `a.b` against nothing further, and the star-at-end token accepting a
dotted run. -/
theorem c3_amended_witness :
    globToRegex ('*' :: '.' :: ['c']) = .starNotDot :: globToRegex ('.' :: ['c']) ∧
    (∃ u v, (['b', 'x'] : List Char) = u ++ v ∧ (∀ ch ∈ u, ch ≠ '.') ∧
      rmatch [] v = true) ∧
    rmatch [.starAny] ['a', '.', 'b'] = true :=
  ⟨c3_amended.1 ['c'],
   c3_amended.2.2.2.1 [] ['b', 'x'] (by simp [rmatch]),
   c3_amended.2.2.2.2 ['a', '.', 'b']⟩


/-- C6: precedence between allow-list and deny-list in `isKeyAllowed`.
Part 1: a path whose normalized key exactly equals a non-wildcard
allow-list entry is admitted whatever the deny-list holds — the literal
allow entry overrides every deny glob.  Part 2: a path that matches a
wildcard allow-list pattern (by glob match) while no non-wildcard entry
equals it or is a dotted prefix of it, and that also matches some
deny-list glob, is rejected. -/
theorem c6_allow_deny_precedence :
    (∀ (wl bl : List String) (key w : String),
      w ∈ wl → w.toList.contains '*' = false → normKey key = w.toList →
      isKeyAllowed key (some wl) (some bl) = true) ∧
    (∀ (wl bl : List String) (key : String),
      (∃ w ∈ wl, w.toList.contains '*' = true ∧
        matchGlob (normalizeIdx (normKey key)) w.toList = true) →
      (∀ w ∈ wl, w.toList.contains '*' = false →
        (normKey key == w.toList) = false ∧
        ((w.toList ++ ['.']).isPrefixOf (normKey key)) = false) →
      (∃ b ∈ bl, matchGlob (normalizeIdx (normKey key)) b.toList = true) →
      isKeyAllowed key (some wl) (some bl) = false) := by
  constructor
  · intro wl bl key w hw hstar hk
    have hne : wl.isEmpty = false := by
      cases wl with
      | nil => cases hw
      | cons a l => rfl
    have hadm : (wl.any fun p =>
        whitelistAdmits (normKey key) (normalizeIdx (normKey key)) p.toList) = true := by
      refine List.any_eq_true.mpr ⟨w, hw, ?_⟩
      have hb : (w.toList == normKey key) = true := by rw [hk]; simp
      unfold whitelistAdmits
      rw [hb]
      rfl
    have hhnw : (wl.any fun p => !(p.toList.contains '*')) = true :=
      List.any_eq_true.mpr ⟨w, hw, by simpa using hstar⟩
    have hmnw : (wl.any fun p =>
        !(p.toList.contains '*') &&
          (normKey key == p.toList || (p.toList ++ ['.']).isPrefixOf (normKey key))) = true := by
      refine List.any_eq_true.mpr ⟨w, hw, ?_⟩
      rw [hstar, hk]
      simp
    simp only [isKeyAllowed, hne, hadm, hhnw, hmnw]
    simp
  · intro wl bl key hW hNoExact hB
    obtain ⟨w, hwmem, hwstar, hwglob⟩ := hW
    obtain ⟨b, hbmem, hbglob⟩ := hB
    have hne : wl.isEmpty = false := by
      cases wl with
      | nil => cases hwmem
      | cons a l => rfl
    have hble : bl.isEmpty = false := by
      cases bl with
      | nil => cases hbmem
      | cons a l => rfl
    have hadm : (wl.any fun p =>
        whitelistAdmits (normKey key) (normalizeIdx (normKey key)) p.toList) = true := by
      refine List.any_eq_true.mpr ⟨w, hwmem, ?_⟩
      unfold whitelistAdmits
      rw [hwglob]
      simp
    have hmnw : (wl.any fun p =>
        !(p.toList.contains '*') &&
          (normKey key == p.toList || (p.toList ++ ['.']).isPrefixOf (normKey key))) = false := by
      rw [List.any_eq_false]
      intro x hx
      by_cases hs : x.toList.contains '*'
      · rw [hs]
        simp
      · simp only [Bool.not_eq_true] at hs
        have hx2 := hNoExact x hx hs
        rw [hs, hx2.1, hx2.2]
        simp
    have hmww : (wl.any fun p =>
        p.toList.contains '*' && matchGlob (normalizeIdx (normKey key)) p.toList) = true :=
      List.any_eq_true.mpr ⟨w, hwmem, by rw [hwstar, hwglob]; rfl⟩
    have hblany : (bl.any fun p => matchGlob (normalizeIdx (normKey key)) p.toList) = true :=
      List.any_eq_true.mpr ⟨b, hbmem, hbglob⟩
    simp only [isKeyAllowed, hne, hble, hadm, hmnw, hmww, hblany]
    simp

/-- Witness for C6: `$.secret` matching the literal allow entry `secret`
survives the identical deny entry; `$.user.email` matching only the
wildcard allow pattern `user.*` is rejected by the deny glob `*.email`. -/
theorem c6_allow_deny_precedence_witness :
    isKeyAllowed "$.secret" (some ["secret"]) (some ["secret"]) = true ∧
    isKeyAllowed "$.user.email" (some ["user.*"]) (some ["*.email"]) = false := by
  constructor
  · exact c6_allow_deny_precedence.1 ["secret"] ["secret"] "$.secret" "secret"
      (by simp) (by decide) (by decide)
  · refine c6_allow_deny_precedence.2 ["user.*"] ["*.email"] "$.user.email"
      ⟨"user.*", by simp, by decide, ?_⟩ ?_ ⟨"*.email", by simp, ?_⟩
    · show matchGlob "user.email".toList "user.*".toList = true
      simp [matchGlob, globToRegex, rmatch]
    · intro w hw hs
      simp only [List.mem_singleton] at hw
      subst hw
      exact absurd hs (by decide)
    · show matchGlob "user.email".toList "*.email".toList = true
      simp [matchGlob, globToRegex, rmatch]

/-! ### Walker lemmas -/

theorem keysOf_toList : ∀ (ps : Props), (Props.toList ps).map Prod.fst = keysOf ps
  | .nil => rfl
  | .cons k v rest => by simp [Props.toList, keysOf, keysOf_toList rest]

theorem sizePs_toList : ∀ (ps : Props),
    ((Props.toList ps).map (fun kv => sizeT kv.2)).sum = sizePs ps
  | .nil => rfl
  | .cons k v rest => by simp [Props.toList, sizePs, sizePs_toList rest]

theorem sizeEs_toList : ∀ (es : Elems), ((Elems.toList es).map sizeT).sum = sizeEs es
  | .nil => rfl
  | .cons v rest => by simp [Elems.toList, sizeEs, sizeEs_toList rest]

theorem sizeT_pos (t : JsonTree) : 1 ≤ sizeT t := by
  cases t <;> simp [sizeT]

theorem stackSize_nil : stackSize [] = 0 := rfl

theorem stackSize_cons (f : StackFrame) (l : List StackFrame) :
    stackSize (f :: l) = sizeT f.node + stackSize l := by
  simp [stackSize]

theorem stackSize_append (a b : List StackFrame) :
    stackSize (a ++ b) = stackSize a + stackSize b := by
  simp [stackSize]

theorem stackSize_reverse (l : List StackFrame) : stackSize l.reverse = stackSize l := by
  simp [stackSize, List.map_reverse, List.sum_reverse]

theorem stackSize_childFrames (path : String) (d : Nat) (l : List (String × JsonTree)) :
    stackSize (l.map (childFrame path d)) = (l.map (fun kv => sizeT kv.2)).sum := by
  induction l with
  | nil => rfl
  | cons kv rest ih => simp [stackSize, childFrame] at ih ⊢; omega

theorem stackSize_elemFrames (path : String) (d : Nat) :
    ∀ (l : List JsonTree) (i : Nat), stackSize (elemFrames path d l i) = (l.map sizeT).sum
  | [], _ => rfl
  | v :: rest, i => by
    simp [elemFrames, stackSize] at *
    have := stackSize_elemFrames path d rest (i + 1)
    simp [stackSize] at this
    omega

theorem processProps_cases (ctx : WalkCtx) (path : String) (d : Nat) :
    ∀ (l : List (String × JsonTree)) (seen : List String) (stack : List StackFrame),
      (∃ r, processProps ctx path d l seen stack = .inl r) ∨
      processProps ctx path d l seen stack =
        .inr ((l.map (childFrame path d)).reverse ++ stack)
  | [], seen, stack => Or.inr (by simp [processProps])
  | (key, v) :: rest, seen, stack => by
    simp only [processProps]
    split
    · exact Or.inl ⟨_, rfl⟩
    · split
      · exact Or.inl ⟨_, rfl⟩
      · split
        · exact Or.inl ⟨_, rfl⟩
        · rcases processProps_cases ctx path d rest (key :: seen)
            ({ node := v, path := path ++ "." ++ key, depth := d + 1, seenKeys := [] } :: stack)
            with ⟨r, hr⟩ | hr
          · exact Or.inl ⟨r, hr⟩
          · rw [hr]
            right
            simp [childFrame]

theorem walkTerminates (ctx : WalkCtx) : ∀ (fuel : Nat) (stack : List StackFrame),
    stackSize stack < fuel → (walkLoop ctx fuel stack).isSome = true := by
  intro fuel
  induction fuel with
  | zero => intro stack h; omega
  | succ n ih =>
    intro stack h
    match stack with
    | [] => simp [walkLoop]
    | f :: rest =>
      obtain ⟨node, path, depth, seen⟩ := f
      rw [walkLoop]
      split
      · simp
      · rw [stackSize_cons] at h
        simp only at h
        cases node with
        | obj props =>
          rcases processProps_cases ctx path depth props.toList.reverse seen rest
            with ⟨r, hr⟩ | hr
          · simp [hr]
          · simp only [hr]
            apply ih
            rw [stackSize_append, stackSize_reverse, stackSize_childFrames]
            rw [List.map_reverse, List.sum_reverse, sizePs_toList]
            simp [sizeT] at h
            omega
        | arr es =>
          apply ih
          rw [stackSize_append, stackSize_elemFrames, sizeEs_toList]
          simp [sizeT] at h
          omega
        | str s => apply ih; simp [sizeT] at h; omega
        | num m => apply ih; simp [sizeT] at h; omega
        | bool b => apply ih; simp [sizeT] at h; omega
        | null => apply ih; simp [sizeT] at h; omega

/-- C10: the iterative walker terminates on every finite syntax tree, for
every options value, path and starting depth: `sizeT node + 1` steps of the
loop — one per node plus the final empty-stack check — always reach a
returned `WalkResult`, and `findDuplicateInNode` is exactly that result. -/
theorem c10_walker_terminates (node : JsonTree) (path : String)
    (o : StrictJsonOptions) (depth : Nat) :
    ∃ r : WalkResult,
      walkLoop (mkWalkCtx o) (sizeT node + 1)
        [{ node := node, path := path, depth := depth, seenKeys := [] }] = some r ∧
      findDuplicateInNode node path o depth = r := by
  have h := walkTerminates (mkWalkCtx o) (sizeT node + 1)
    [{ node := node, path := path, depth := depth, seenKeys := [] }]
    (by simp [stackSize_cons, stackSize_nil])
  rcases Option.isSome_iff_exists.mp h with ⟨r, hr⟩
  exact ⟨r, hr, by rw [findDuplicateInNode, hr]; rfl⟩

theorem noDupKeys_iff : ∀ (l : List String), noDupKeys l = true ↔ l.Nodup
  | [] => by simp [noDupKeys]
  | k :: rest => by
    simp [noDupKeys, noDupKeys_iff rest, List.nodup_cons]

theorem processProps_no_dup (ctx : WalkCtx) (path : String) (d : Nat) :
    ∀ (l : List (String × JsonTree)) (seen : List String) (stack : List StackFrame),
      (l.map Prod.fst ++ seen).Nodup →
      ∀ k p, processProps ctx path d l seen stack ≠ .inl (.dup k p)
  | [], _, _, _, k, p => by simp [processProps]
  | (key, v) :: rest, seen, stack, hnd, k, p => by
    simp only [processProps]
    split
    · simp
    · split
      · simp
      · split
        · rename_i hcont
          exfalso
          simp only [List.map_cons, List.cons_append, List.nodup_cons] at hnd
          refine hnd.1 (List.mem_append.mpr (Or.inr ?_))
          simpa using hcont
        · apply processProps_no_dup ctx path d rest (key :: seen) _ ?_ k p
          simp only [List.map_cons, List.cons_append] at hnd
          exact (List.perm_middle).nodup_iff.mpr hnd

theorem elemFrames_mem (path : String) (d : Nat) :
    ∀ (l : List JsonTree) (i : Nat) (f : StackFrame), f ∈ elemFrames path d l i →
      f.seenKeys = [] ∧ f.depth = d + 1 ∧ ∃ v ∈ l, f.node = v
  | [], _, f, h => by simp [elemFrames] at h
  | v :: rest, i, f, h => by
    simp only [elemFrames, List.mem_cons] at h
    rcases h with rfl | h
    · exact ⟨rfl, rfl, v, by simp, rfl⟩
    · rcases elemFrames_mem path d rest (i + 1) f h with ⟨h1, hd, w, hw, h2⟩
      exact ⟨h1, hd, w, by simp [hw], h2⟩

theorem noLocalDupPs_mem : ∀ (ps : Props), noLocalDupPs ps = true →
    ∀ kv ∈ Props.toList ps, noLocalDup kv.2 = true
  | .nil, _, kv, h => by simp [Props.toList] at h
  | .cons k v rest, hnd, kv, h => by
    simp only [noLocalDupPs, Bool.and_eq_true] at hnd
    simp only [Props.toList, List.mem_cons] at h
    rcases h with rfl | h
    · exact hnd.1
    · exact noLocalDupPs_mem rest hnd.2 kv h

theorem noLocalDupEs_mem : ∀ (es : Elems), noLocalDupEs es = true →
    ∀ v ∈ Elems.toList es, noLocalDup v = true
  | .nil, _, v, h => by simp [Elems.toList] at h
  | .cons w rest, hnd, v, h => by
    simp only [noLocalDupEs, Bool.and_eq_true] at hnd
    simp only [Elems.toList, List.mem_cons] at h
    rcases h with rfl | h
    · exact hnd.1
    · exact noLocalDupEs_mem rest hnd.2 v h

theorem walkLoop_no_dup (ctx : WalkCtx) : ∀ (fuel : Nat) (stack : List StackFrame),
    (∀ f ∈ stack, noLocalDup f.node = true ∧ f.seenKeys = []) →
    ∀ k p, walkLoop ctx fuel stack ≠ some (.dup k p) := by
  intro fuel
  induction fuel with
  | zero => intro stack _ k p; simp [walkLoop]
  | succ n ih =>
    intro stack hinv k p
    match stack with
    | [] => simp [walkLoop]
    | f :: rest =>
      obtain ⟨node, path, depth, seen⟩ := f
      have hf := hinv _ (List.mem_cons_self _ _)
      simp only at hf
      have hrest : ∀ g ∈ rest, noLocalDup g.node = true ∧ g.seenKeys = [] :=
        fun g hg => hinv g (List.mem_cons_of_mem _ hg)
      rw [walkLoop]
      dsimp only
      split
      · simp
      · cases node with
        | obj props =>
          dsimp only
          rcases processProps_cases ctx path depth props.toList.reverse seen rest
            with ⟨r, hr⟩ | hr
          · rw [hr]
            intro hc
            simp only [Option.some.injEq] at hc
            subst hc
            refine processProps_no_dup ctx path depth _ _ _ ?_ k p hr
            rw [hf.2]
            simp only [List.append_nil]
            rw [List.map_reverse, keysOf_toList, List.nodup_reverse]
            have hnl := hf.1
            simp only [noLocalDup, Bool.and_eq_true] at hnl
            exact (noDupKeys_iff _).mp hnl.1
          · rw [hr]
            apply ih
            intro g hg
            rcases List.mem_append.mp hg with hmap | hrr
            · rw [List.mem_reverse] at hmap
              rcases List.mem_map.mp hmap with ⟨kv, hkv, rfl⟩
              refine ⟨?_, rfl⟩
              rw [List.mem_reverse] at hkv
              have hnl := hf.1
              simp only [noLocalDup, Bool.and_eq_true] at hnl
              exact noLocalDupPs_mem props hnl.2 kv hkv
            · exact hrest g hrr
        | arr es =>
          dsimp only
          apply ih
          intro g hg
          rcases List.mem_append.mp hg with hel | hrr
          · rcases elemFrames_mem path depth es.toList 0 g hel with ⟨h1, hd, v, hv, h2⟩
            refine ⟨?_, h1⟩
            rw [h2]
            have hnl := hf.1
            simp only [noLocalDup] at hnl
            exact noLocalDupEs_mem es hnl v hv
          · exact hrest g hrr
        | str s => exact ih rest hrest k p
        | num m => exact ih rest hrest k p
        | bool b => exact ih rest hrest k p
        | null => exact ih rest hrest k p

/-- C5: duplicate detection is strictly scoped to the immediate property
list of one object node.  If no object node anywhere in a document repeats
a key within its own property list — in particular when a key name occurs
once each in two sibling objects, in two different array elements, or in a
parent object and a nested child — the walker never returns a duplicate,
for every options value, path and starting depth.  (In the embedding every
pushed frame carries a fresh empty `seenKeys` by construction; this
theorem is the behavioural consequence.) -/
theorem c5_duplicate_scoping (node : JsonTree) (path : String)
    (o : StrictJsonOptions) (depth : Nat) (h : noLocalDup node = true) :
    (findDuplicateInNode node path o depth).isDup = false := by
  rw [findDuplicateInNode]
  cases hw : walkLoop (mkWalkCtx o) (sizeT node + 1)
      [{ node := node, path := path, depth := depth, seenKeys := [] }] with
  | none => rfl
  | some r =>
    have hnd := walkLoop_no_dup (mkWalkCtx o) (sizeT node + 1)
      [{ node := node, path := path, depth := depth, seenKeys := [] }]
      (by intro f hf; simp only [List.mem_singleton] at hf; subst hf; exact ⟨h, rfl⟩)
    cases r with
    | dup k p => exact absurd hw (hnd k p)
    | ok => rfl
    | errDepth a b => rfl
    | errProto a b => rfl
    | errKeyNotAllowed a b => rfl

/-- Witness for C5: the same key `b` in two sibling objects is not a
duplicate (spec example 2). -/
theorem c5_duplicate_scoping_witness :
    (findDuplicateInNode sampleSiblings "$" {} 0).isDup = false :=
  c5_duplicate_scoping sampleSiblings "$" {} 0 rfl

theorem revScanDup_none (path : String) :
    ∀ (l : List (String × JsonTree)) (seen : List String),
      (l.map Prod.fst ++ seen).Nodup → revScanDup path l seen = none
  | [], _, _ => rfl
  | (key, v) :: rest, seen, hnd => by
    have hns : ¬seen.contains key = true := by
      simp only [List.map_cons, List.cons_append, List.nodup_cons] at hnd
      intro hc
      exact hnd.1 (List.mem_append.mpr (Or.inr (by simpa using hc)))
    simp only [revScanDup, if_neg hns]
    refine revScanDup_none path rest (key :: seen) ?_
    simp only [List.map_cons, List.cons_append] at hnd
    exact (List.perm_middle).nodup_iff.mpr hnd

theorem processProps_clean (ctx : WalkCtx) (hb : ctx.shouldCheckBlacklist = false)
    (hp : ctx.shouldCheckPrototype = false) (path : String) (d : Nat) :
    ∀ (l : List (String × JsonTree)) (seen : List String) (stack : List StackFrame),
      processProps ctx path d l seen stack =
        match revScanDup path l seen with
        | some (k, p) => .inl (.dup k p)
        | none => .inr ((l.map (childFrame path d)).reverse ++ stack)
  | [], seen, stack => by simp [processProps, revScanDup]
  | (key, v) :: rest, seen, stack => by
    simp only [processProps, revScanDup, hb, hp, Bool.false_and, Bool.false_eq_true,
      if_false]
    by_cases hc : seen.contains key = true
    · rw [if_pos hc, if_pos hc]
    · rw [if_neg hc, if_neg hc]
      rw [processProps_clean ctx hb hp path d rest (key :: seen)
        ({ node := v, path := path ++ "." ++ key, depth := d + 1, seenKeys := [] } :: stack)]
      cases hrv : revScanDup path rest (key :: seen) with
      | some r => cases r; rfl
      | none => simp [childFrame]

theorem stackSpec_props (path : String) (d : Nat) :
    ∀ (ps : Props) (rest : List StackFrame),
      stackSpec ((Props.toList ps).map (childFrame path d) ++ rest) =
        match revChildren ps path with
        | some r => some r
        | none => stackSpec rest
  | .nil, rest => by simp [Props.toList, revChildren]
  | .cons k v ps, rest => by
    simp only [Props.toList, List.map_cons, List.cons_append, stackSpec, childFrame]
    cases h : revFirstDup v (path ++ "." ++ k) with
    | some r => simp [revChildren, h]
    | none => simp [revChildren, h, stackSpec_props path d ps rest]

theorem stackSpec_elems (path : String) (d : Nat) :
    ∀ (es : Elems) (i : Nat) (rest : List StackFrame),
      stackSpec (elemFrames path d (Elems.toList es) i ++ rest) =
        match revElems es path i with
        | some r => some r
        | none => stackSpec rest
  | .nil, i, rest => by simp [Elems.toList, elemFrames, revElems]
  | .cons v es, i, rest => by
    simp only [Elems.toList, elemFrames, List.cons_append, stackSpec]
    cases h : revFirstDup v (path ++ "[" ++ toString i ++ "]") with
    | some r => simp [revElems, h]
    | none => simp [revElems, h, stackSpec_elems path d es (i + 1) rest]

theorem heightPs_mem : ∀ (ps : Props), ∀ kv ∈ Props.toList ps,
    1 + heightT kv.2 ≤ heightPs ps
  | .nil, kv, h => by simp [Props.toList] at h
  | .cons k v rest, kv, h => by
    simp only [Props.toList, List.mem_cons] at h
    simp only [heightPs]
    rcases h with rfl | h
    · exact Nat.le_max_left _ _
    · exact le_trans (heightPs_mem rest kv h) (Nat.le_max_right _ _)

theorem heightEs_mem : ∀ (es : Elems), ∀ v ∈ Elems.toList es,
    1 + heightT v ≤ heightEs es
  | .nil, v, h => by simp [Elems.toList] at h
  | .cons w rest, v, h => by
    simp only [Elems.toList, List.mem_cons] at h
    simp only [heightEs]
    rcases h with rfl | h
    · exact Nat.le_max_left _ _
    · exact le_trans (heightEs_mem rest v h) (Nat.le_max_right _ _)

theorem heightPs_wit : ∀ (ps : Props), 0 < heightPs ps →
    ∃ kv ∈ Props.toList ps, heightPs ps = 1 + heightT kv.2
  | .nil, h => by simp [heightPs] at h
  | .cons k v rest, _ => by
    simp only [heightPs]
    rcases Nat.le_total (heightPs rest) (1 + heightT v) with hle | hle
    · exact ⟨(k, v), by simp [Props.toList], Nat.max_eq_left hle⟩
    · have hpos : 0 < heightPs rest := by omega
      rcases heightPs_wit rest hpos with ⟨kv, hkv, he⟩
      refine ⟨kv, by simp [Props.toList, hkv], ?_⟩
      rw [Nat.max_eq_right hle, he]

theorem heightEs_wit : ∀ (es : Elems), 0 < heightEs es →
    ∃ v ∈ Elems.toList es, heightEs es = 1 + heightT v
  | .nil, h => by simp [heightEs] at h
  | .cons w rest, _ => by
    simp only [heightEs]
    rcases Nat.le_total (heightEs rest) (1 + heightT w) with hle | hle
    · exact ⟨w, by simp [Elems.toList], Nat.max_eq_left hle⟩
    · have hpos : 0 < heightEs rest := by omega
      rcases heightEs_wit rest hpos with ⟨v, hv, he⟩
      refine ⟨v, by simp [Elems.toList, hv], ?_⟩
      rw [Nat.max_eq_right hle, he]

theorem walkLoop_clean (ctx : WalkCtx) (hb : ctx.shouldCheckBlacklist = false)
    (hp : ctx.shouldCheckPrototype = false) :
    ∀ (fuel : Nat) (stack : List StackFrame), stackSize stack < fuel →
      (∀ f ∈ stack, f.seenKeys = [] ∧ f.depth + heightT f.node ≤ ctx.effectiveDepthLimit) →
      walkLoop ctx fuel stack =
        some (match stackSpec stack with
              | some (k, p) => .dup k p
              | none => .ok) := by
  intro fuel
  induction fuel with
  | zero => intro stack h _; omega
  | succ n ih =>
    intro stack hsz hinv
    match stack with
    | [] => simp [walkLoop, stackSpec]
    | f :: rest =>
      obtain ⟨node, path, depth, seen⟩ := f
      have hf := hinv _ (List.mem_cons_self _ _)
      simp only at hf
      obtain ⟨hseen, hdb⟩ := hf
      subst hseen
      have hrest : ∀ g ∈ rest,
          g.seenKeys = [] ∧ g.depth + heightT g.node ≤ ctx.effectiveDepthLimit :=
        fun g hg => hinv g (List.mem_cons_of_mem _ hg)
      rw [stackSize_cons] at hsz
      simp only at hsz
      have hdep : ¬(depth > ctx.effectiveDepthLimit) := by omega
      rw [walkLoop]
      dsimp only
      rw [if_neg hdep]
      cases node with
      | obj props =>
        dsimp only
        rw [processProps_clean ctx hb hp path depth props.toList.reverse [] rest]
        have hspec : stackSpec
            ({ node := .obj props, path := path, depth := depth, seenKeys := [] } :: rest) =
            match revScanDup path props.toList.reverse [] with
            | some r => some r
            | none =>
              match revChildren props path with
              | some r => some r
              | none => stackSpec rest := by
          simp only [stackSpec, revFirstDup]
          cases revScanDup path props.toList.reverse [] with
          | some r => rfl
          | none => rfl
        rw [hspec]
        cases hrs : revScanDup path props.toList.reverse [] with
        | some r =>
          obtain ⟨k0, p0⟩ := r
          rfl
        | none =>
          dsimp only
          have hmm : ((props.toList.reverse.map (childFrame path depth)).reverse ++ rest) =
              (props.toList.map (childFrame path depth)) ++ rest := by
            simp [List.map_reverse]
          rw [hmm]
          rw [ih _ ?_ ?_]
          · rw [stackSpec_props]
          · rw [stackSize_append, stackSize_childFrames, sizePs_toList]
            simp only [sizeT] at hsz
            omega
          · intro g hg
            rcases List.mem_append.mp hg with hmap | hrr
            · rcases List.mem_map.mp hmap with ⟨kv, hkv, rfl⟩
              refine ⟨rfl, ?_⟩
              simp only [childFrame]
              have h1 : 1 + heightT kv.2 ≤ heightPs props := heightPs_mem props kv hkv
              have h2 : depth + heightT (.obj props) ≤ ctx.effectiveDepthLimit := hdb
              simp only [heightT] at h2
              omega
            · exact hrest g hrr
      | arr es =>
        dsimp only
        have hspec : stackSpec
            ({ node := .arr es, path := path, depth := depth, seenKeys := [] } :: rest) =
            match revElems es path 0 with
            | some r => some r
            | none => stackSpec rest := by
          simp only [stackSpec, revFirstDup]
        rw [hspec]
        rw [ih _ ?_ ?_]
        · rw [stackSpec_elems]
        · rw [stackSize_append, stackSize_elemFrames, sizeEs_toList]
          simp only [sizeT] at hsz
          omega
        · intro g hg
          rcases List.mem_append.mp hg with hel | hrr
          · rcases elemFrames_mem path depth es.toList 0 g hel with ⟨h1, hd, v, hv, h2⟩
            refine ⟨h1, ?_⟩
            rw [h2, hd]
            have h3 : 1 + heightT v ≤ heightEs es := heightEs_mem es v hv
            have h4 : depth + heightT (.arr es) ≤ ctx.effectiveDepthLimit := hdb
            simp only [heightT] at h4
            omega
          · exact hrest g hrr
      | str s =>
        dsimp only
        rw [ih rest (by simp [sizeT] at hsz; omega) hrest]
        rfl
      | num m =>
        dsimp only
        rw [ih rest (by simp [sizeT] at hsz; omega) hrest]
        rfl
      | bool b2 =>
        dsimp only
        rw [ih rest (by simp [sizeT] at hsz; omega) hrest]
        rfl
      | null =>
        dsimp only
        rw [ih rest (by simp [sizeT] at hsz; omega) hrest]
        rfl

theorem mem_elemFrames (path : String) (d : Nat) :
    ∀ (l : List JsonTree) (i : Nat) (v : JsonTree), v ∈ l →
      ∃ f ∈ elemFrames path d l i, f.node = v ∧ f.depth = d + 1
  | [], _, v, h => by cases h
  | w :: rest, i, v, h => by
    rcases List.mem_cons.mp h with rfl | h
    · have hh : ({ node := v, path := path ++ "[" ++ toString i ++ "]", depth := d + 1, seenKeys := [] } : StackFrame) ∈ elemFrames path d (v :: rest) i := by
        simp [elemFrames]
      exact ⟨_, hh, rfl, rfl⟩
    · rcases mem_elemFrames path d rest (i + 1) v h with ⟨f, hf, h2⟩
      exact ⟨f, by simp [elemFrames, hf], h2⟩

theorem walkLoop_depth_fail (ctx : WalkCtx) (hb : ctx.shouldCheckBlacklist = false)
    (hp : ctx.shouldCheckPrototype = false) :
    ∀ (fuel : Nat) (stack : List StackFrame), stackSize stack < fuel →
      (∀ f ∈ stack, f.seenKeys = [] ∧ noLocalDup f.node = true ∧
        f.depth ≤ ctx.effectiveDepthLimit + 1) →
      (∃ f ∈ stack, ctx.effectiveDepthLimit < f.depth + heightT f.node) →
      walkLoop ctx fuel stack =
        some (.errDepth (ctx.effectiveDepthLimit + 1) ctx.effectiveDepthLimit) := by
  intro fuel
  induction fuel with
  | zero => intro stack h _ _; omega
  | succ n ih =>
    intro stack hsz hinv hviol
    match stack with
    | [] => rcases hviol with ⟨f, hf, _⟩; cases hf
    | f :: rest =>
      obtain ⟨node, path, depth, seen⟩ := f
      have hf := hinv _ (List.mem_cons_self _ _)
      simp only at hf
      obtain ⟨hseen, hnl, hdle⟩ := hf
      subst hseen
      have hrest : ∀ g ∈ rest, g.seenKeys = [] ∧ noLocalDup g.node = true ∧
          g.depth ≤ ctx.effectiveDepthLimit + 1 :=
        fun g hg => hinv g (List.mem_cons_of_mem _ hg)
      rw [stackSize_cons] at hsz
      simp only at hsz
      rw [walkLoop]
      dsimp only
      by_cases hdep : depth > ctx.effectiveDepthLimit
      · rw [if_pos hdep]
        have hde : depth = ctx.effectiveDepthLimit + 1 := by omega
        rw [hde]
      · rw [if_neg hdep]
        cases node with
        | obj props =>
          dsimp only
          rw [processProps_clean ctx hb hp path depth props.toList.reverse [] rest]
          have hrs : revScanDup path props.toList.reverse [] = none := by
            apply revScanDup_none
            simp only [List.append_nil]
            rw [List.map_reverse, keysOf_toList, List.nodup_reverse]
            simp only [noLocalDup, Bool.and_eq_true] at hnl
            exact (noDupKeys_iff _).mp hnl.1
          rw [hrs]
          dsimp only
          have hmm : ((props.toList.reverse.map (childFrame path depth)).reverse ++ rest) =
              (props.toList.map (childFrame path depth)) ++ rest := by
            simp [List.map_reverse]
          rw [hmm]
          apply ih
          · rw [stackSize_append, stackSize_childFrames, sizePs_toList]
            simp only [sizeT] at hsz
            omega
          · intro g hg
            rcases List.mem_append.mp hg with hmap | hrr
            · rcases List.mem_map.mp hmap with ⟨kv, hkv, rfl⟩
              refine ⟨rfl, ?_, ?_⟩
              · simp only [noLocalDup, Bool.and_eq_true] at hnl
                exact noLocalDupPs_mem props hnl.2 kv hkv
              · simp only [childFrame]
                omega
            · exact hrest g hrr
          · rcases hviol with ⟨f0, hf0, hfv⟩
            rcases List.mem_cons.mp hf0 with rfl | hf0r
            · simp only [heightT] at hfv
              have hpos : 0 < heightPs props := by omega
              rcases heightPs_wit props hpos with ⟨kv, hkv, he⟩
              refine ⟨childFrame path depth kv,
                List.mem_append.mpr (Or.inl (List.mem_map_of_mem _ hkv)), ?_⟩
              simp only [childFrame]
              omega
            · rcases hrest f0 hf0r with _
              exact ⟨f0, List.mem_append.mpr (Or.inr hf0r), hfv⟩
        | arr es =>
          dsimp only
          apply ih
          · rw [stackSize_append, stackSize_elemFrames, sizeEs_toList]
            simp only [sizeT] at hsz
            omega
          · intro g hg
            rcases List.mem_append.mp hg with hel | hrr
            · rcases elemFrames_mem path depth es.toList 0 g hel with ⟨h1, hd, v, hv, h2⟩
              refine ⟨h1, ?_, ?_⟩
              · rw [h2]
                simp only [noLocalDup] at hnl
                exact noLocalDupEs_mem es hnl v hv
              · omega
            · exact hrest g hrr
          · rcases hviol with ⟨f0, hf0, hfv⟩
            rcases List.mem_cons.mp hf0 with rfl | hf0r
            · simp only [heightT] at hfv
              have hpos : 0 < heightEs es := by omega
              rcases heightEs_wit es hpos with ⟨v, hv, he⟩
              rcases mem_elemFrames path depth es.toList 0 v hv with ⟨g, hg, hgn, hgd⟩
              refine ⟨g, List.mem_append.mpr (Or.inl hg), ?_⟩
              rw [hgn, hgd]
              omega
            · exact ⟨f0, List.mem_append.mpr (Or.inr hf0r), hfv⟩
        | str s =>
          dsimp only
          apply ih rest (by simp [sizeT] at hsz; omega) hrest
          rcases hviol with ⟨f0, hf0, hfv⟩
          rcases List.mem_cons.mp hf0 with rfl | hf0r
          · simp only [heightT] at hfv
            omega
          · exact ⟨f0, hf0r, hfv⟩
        | num m =>
          dsimp only
          apply ih rest (by simp [sizeT] at hsz; omega) hrest
          rcases hviol with ⟨f0, hf0, hfv⟩
          rcases List.mem_cons.mp hf0 with rfl | hf0r
          · simp only [heightT] at hfv
            omega
          · exact ⟨f0, hf0r, hfv⟩
        | bool b2 =>
          dsimp only
          apply ih rest (by simp [sizeT] at hsz; omega) hrest
          rcases hviol with ⟨f0, hf0, hfv⟩
          rcases List.mem_cons.mp hf0 with rfl | hf0r
          · simp only [heightT] at hfv
            omega
          · exact ⟨f0, hf0r, hfv⟩
        | null =>
          dsimp only
          apply ih rest (by simp [sizeT] at hsz; omega) hrest
          rcases hviol with ⟨f0, hf0, hfv⟩
          rcases List.mem_cons.mp hf0 with rfl | hf0r
          · simp only [heightT] at hfv
            omega
          · exact ⟨f0, hf0r, hfv⟩

mutual
theorem revFirstDup_none : ∀ (t : JsonTree) (path : String),
    noLocalDup t = true → revFirstDup t path = none
  | .obj ps, path, h => by
    simp only [noLocalDup, Bool.and_eq_true] at h
    have hnd : ((ps.toList.reverse.map Prod.fst) ++ ([] : List String)).Nodup := by
      simp only [List.append_nil]
      rw [List.map_reverse, keysOf_toList, List.nodup_reverse]
      exact (noDupKeys_iff _).mp h.1
    simp only [revFirstDup, revScanDup_none path _ [] hnd, revChildren_none ps path h.2]
  | .arr es, path, h => by
    simp only [revFirstDup]
    exact revElems_none es path 0 (by simpa [noLocalDup] using h)
  | .str s, _, _ => rfl
  | .num n, _, _ => rfl
  | .bool b, _, _ => rfl
  | .null, _, _ => rfl
theorem revChildren_none : ∀ (ps : Props) (path : String),
    noLocalDupPs ps = true → revChildren ps path = none
  | .nil, _, _ => rfl
  | .cons k v rest, path, h => by
    simp only [noLocalDupPs, Bool.and_eq_true] at h
    simp only [revChildren, revFirstDup_none v (path ++ "." ++ k) h.1,
      revChildren_none rest path h.2]
theorem revElems_none : ∀ (es : Elems) (path : String) (i : Nat),
    noLocalDupEs es = true → revElems es path i = none
  | .nil, _, _, _ => rfl
  | .cons v rest, path, i, h => by
    simp only [noLocalDupEs, Bool.and_eq_true] at h
    simp only [revElems, revFirstDup_none v (path ++ "[" ++ toString i ++ "]") h.1,
      revElems_none rest path (i + 1) h.2]
end

theorem mkWalkCtx_clean (o : StrictJsonOptions) (hw : o.whitelist = none)
    (hb : o.blacklist = none) : (mkWalkCtx o).shouldCheckBlacklist = false := by
  simp [mkWalkCtx, hw, hb]

theorem mkWalkCtx_noproto (o : StrictJsonOptions)
    (hp : o.enablePrototypePollutionProtection = some false) :
    (mkWalkCtx o).shouldCheckPrototype = false := by
  simp [mkWalkCtx, hp]

theorem mkWalkCtx_limit (o : StrictJsonOptions) (hl : o.lazyMode.getD false = false) :
    (mkWalkCtx o).effectiveDepthLimit = o.maxDepth.getD 20 := by
  simp [mkWalkCtx, hl]

/-- C2 (amended): under the claim's precondition that no policy, depth or
dangerous-key violation interferes (policy lists absent, dangerous-key
protection off, document within the effective depth limit), the duplicate
the walker reports is the first one in ITS OWN traversal order — the
reference recursion `revFirstDup`, which checks all immediate keys of an
object right-to-left before descending, then visits the values depth-first
left-to-right — not the first in document order. -/
theorem c2_walker_order (node : JsonTree) (o : StrictJsonOptions)
    (hw : o.whitelist = none) (hb : o.blacklist = none)
    (hp : o.enablePrototypePollutionProtection = some false)
    (hd : heightT node ≤ (mkWalkCtx o).effectiveDepthLimit) :
    findDuplicateInNode node "$" o 0 =
      match revFirstDup node "$" with
      | some (k, p) => .dup k p
      | none => .ok := by
  have hclean := mkWalkCtx_clean o hw hb
  have hproto := mkWalkCtx_noproto o hp
  rw [findDuplicateInNode]
  rw [walkLoop_clean (mkWalkCtx o) hclean hproto (sizeT node + 1) _
    (by simp [stackSize_cons, stackSize_nil]) ?_]
  · simp only [Option.getD_some]
    have hsp : stackSpec [{ node := node, path := "$", depth := 0, seenKeys := [] }] =
        match revFirstDup node "$" with | some r => some r | none => none := by
      simp [stackSpec]
    rw [hsp]
    cases revFirstDup node "$" with
    | some r =>
      obtain ⟨k, p⟩ := r
      rfl
    | none => rfl
  · intro f hf
    simp only [List.mem_singleton] at hf
    subst hf
    exact ⟨rfl, by simpa using hd⟩

/-- Witness for C2 (amended) at `{"x":{"a":1,"a":2},"b":1,"b":2}`. -/
theorem c2_walker_order_witness :
    findDuplicateInNode sampleNested "$"
      { enablePrototypePollutionProtection := some false } 0 =
      match revFirstDup sampleNested "$" with
      | some (k, p) => .dup k p
      | none => .ok :=
  c2_walker_order sampleNested { enablePrototypePollutionProtection := some false }
    rfl rfl rfl (by decide)

/-- C2 (counterexample): in `{"a":1,"b":2,"a":3,"b":4}` the first duplicate
in document (depth-first, left-to-right) order is `a` at `$.a`, but the
walker reports `b` at `$.b` (it scans each object's keys right to left);
in `{"x":{"a":1,"a":2},"b":1,"b":2}` the document's first duplicate is the
nested `a` at `$.x.a`, but the walker reports the outer `b` at `$.b` (an
object's own keys are all checked before any descent). -/
theorem c2_counterexample :
    findDuplicateInNode sampleDupPair "$" {} 0 = .dup "b" "$.b" ∧
    docFirstDup sampleDupPair "$" = some ("a", "$.a") ∧
    findDuplicateInNode sampleNested "$" {} 0 = .dup "b" "$.b" ∧
    docFirstDup sampleNested "$" = some ("a", "$.x.a") :=
  ⟨rfl, rfl, rfl, rfl⟩

/-- C4: in normal mode (lazy mode off), with the policy and dangerous-key
checks out of the way and no duplicate key present, a document of nesting
depth exactly `maxDepth` passes the walker's depth check, while one of
depth `maxDepth + 1` fails with DepthLimitError carrying
`currentDepth = maxDepth + 1` and `maxDepth`, whose code is
`STRICT_JSON_DEPTH_LIMIT`.  (The loop returns at the offending frame, so
no further frame is processed.) -/
theorem c4_depth_boundary (node : JsonTree) (o : StrictJsonOptions)
    (hl : o.lazyMode.getD false = false) (hw : o.whitelist = none)
    (hb : o.blacklist = none) (hp : o.enablePrototypePollutionProtection = some false)
    (hnd : noLocalDup node = true) :
    (heightT node ≤ o.maxDepth.getD 20 → findDuplicateInNode node "$" o 0 = .ok) ∧
    (heightT node = o.maxDepth.getD 20 + 1 →
      findDuplicateInNode node "$" o 0 =
        .errDepth (o.maxDepth.getD 20 + 1) (o.maxDepth.getD 20)) ∧
    errCode (.depthLimit (o.maxDepth.getD 20 + 1) (o.maxDepth.getD 20)) =
      "STRICT_JSON_DEPTH_LIMIT" := by
  have hclean := mkWalkCtx_clean o hw hb
  have hproto := mkWalkCtx_noproto o hp
  have hlim := mkWalkCtx_limit o hl
  refine ⟨?_, ?_, rfl⟩
  · intro hle
    rw [c2_walker_order node o hw hb hp (by rw [hlim]; exact hle)]
    rw [revFirstDup_none node "$" hnd]
  · intro heq
    rw [findDuplicateInNode]
    rw [walkLoop_depth_fail (mkWalkCtx o) hclean hproto (sizeT node + 1) _
      (by simp [stackSize_cons, stackSize_nil]) ?_ ?_]
    · rw [hlim]
      rfl
    · intro f hf
      simp only [List.mem_singleton] at hf
      subst hf
      exact ⟨rfl, hnd, by dsimp only; omega⟩
    · refine ⟨_, List.mem_singleton.mpr rfl, ?_⟩
      dsimp only
      rw [hlim]
      omega

/-- Witness for C4 at `{"a":{"b":1}}` (height 2): passes with
`maxDepth = 2`, fails with `maxDepth = 1` reporting `(2, 1)`. -/
theorem c4_depth_boundary_witness :
    findDuplicateInNode sampleDeep "$"
      { enablePrototypePollutionProtection := some false, maxDepth := some 2 } 0 = .ok ∧
    findDuplicateInNode sampleDeep "$"
      { enablePrototypePollutionProtection := some false, maxDepth := some 1 } 0 =
      .errDepth 2 1 ∧
    errCode (.depthLimit 2 1) = "STRICT_JSON_DEPTH_LIMIT" :=
  ⟨(c4_depth_boundary sampleDeep
      { enablePrototypePollutionProtection := some false, maxDepth := some 2 }
      rfl rfl rfl rfl rfl).1 (by decide),
   (c4_depth_boundary sampleDeep
      { enablePrototypePollutionProtection := some false, maxDepth := some 1 }
      rfl rfl rfl rfl rfl).2.1 (by decide),
   rfl⟩

/-! ### Cache lemmas -/

theorem eraseEntry_length_le (l : List (String × CacheEntry)) (k : String) :
    (eraseEntry l k).length ≤ l.length :=
  List.length_filter_le _ _

theorem eraseEntry_length_lt (l : List (String × CacheEntry)) (k : String)
    (e : CacheEntry) (h : lookupEntry l k = some e) :
    (eraseEntry l k).length < l.length := by
  rcases hf : l.find? (fun p => p.1 == k) with _ | p
  · rw [lookupEntry, hf] at h
    cases h
  · have hp := List.find?_some hf
    have hm := List.mem_of_find?_eq_some hf
    refine List.length_filter_lt_length_iff_exists.mpr ⟨p, hm, ?_⟩
    simp [hp]

theorem lookupEntry_erase_self (l : List (String × CacheEntry)) (k : String) :
    lookupEntry (eraseEntry l k) k = none := by
  rw [lookupEntry, List.find?_eq_none.mpr]
  · rfl
  · intro p hp
    have := List.of_mem_filter hp
    simpa using this

theorem lookupEntry_erase_append_self (l : List (String × CacheEntry)) (k : String)
    (e : CacheEntry) :
    lookupEntry (eraseEntry l k ++ [(k, e)]) k = some e := by
  rw [lookupEntry, List.find?_append]
  have h1 : (eraseEntry l k).find? (fun p => p.1 == k) = none := by
    have := lookupEntry_erase_self l k
    rw [lookupEntry] at this
    rcases hf : (eraseEntry l k).find? (fun p => p.1 == k) with _ | p
    · exact hf
    · rw [hf] at this
      cases this
  rw [h1]
  simp [List.find?]

theorem lookupEntry_mapSet_self (l : List (String × CacheEntry)) (k : String)
    (e : CacheEntry) : lookupEntry (mapSet l k e) k = some e := by
  rw [mapSet]
  split
  · rename_i hany
    induction l with
    | nil => simp at hany
    | cons p rest ih =>
      simp only [List.map_cons]
      by_cases hp : p.1 == k
      · simp [lookupEntry, List.find?, hp]
      · simp only [List.any_cons] at hany
        rw [Bool.or_eq_true] at hany
        rcases hany with h | h
        · exact absurd h hp
        · have := ih h
          simp only [lookupEntry, List.find?] at this ⊢
          simp only [hp]
          simpa [hp] using this
  · rename_i hany
    have hnone : l.find? (fun p => p.1 == k) = none := by
      rw [List.find?_eq_none]
      intro p hp hc
      exact hany (List.any_eq_true.mpr ⟨p, hp, hc⟩)
    rw [lookupEntry, List.find?_append, hnone]
    simp [List.find?]

theorem mapSet_length_le (l : List (String × CacheEntry)) (k : String) (e : CacheEntry) :
    (mapSet l k e).length ≤ l.length + 1 := by
  rw [mapSet]
  split
  · simp
  · simp

theorem mapSet_length_of_mem (l : List (String × CacheEntry)) (k : String)
    (e : CacheEntry) (h : (l.map Prod.fst).contains k = true) :
    (mapSet l k e).length = l.length := by
  rw [mapSet, if_pos]
  · simp
  · have hk : k ∈ l.map Prod.fst := by simpa using h
    rcases List.mem_map.mp hk with ⟨p, hp, hpk⟩
    exact List.any_eq_true.mpr ⟨p, hp, by simp [hpk]⟩

theorem lruSet_fields (c : LRUCache) (now : Nat) (k : String) (v : JsonTree) :
    (LRUCache.set c now k v).maxSize = c.maxSize ∧
    (LRUCache.set c now k v).ttl = c.ttl := by
  rw [LRUCache.set]
  exact ⟨rfl, rfl⟩

theorem lruSet_lookup (c : LRUCache) (now : Nat) (k : String) (v : JsonTree) :
    lookupEntry (LRUCache.set c now k v).entries k = some { value := v, timestamp := now } := by
  rw [LRUCache.set]
  exact lookupEntry_mapSet_self _ k _

theorem lookupEntry_mapSet_absent (l : List (String × CacheEntry)) (k k0 : String)
    (e : CacheEntry) (hne : (k0 == k) = false) (habs : k0 ∉ l.map Prod.fst) :
    lookupEntry (mapSet l k e) k0 = none := by
  have hke : ((k : String) == k0) = false := by
    rw [beq_eq_false_iff_ne] at hne ⊢
    exact fun h => hne h.symm
  rw [mapSet]
  split
  · rw [lookupEntry]
    have hfind : (l.map (fun p => if p.1 == k then (k, e) else p)).find?
        (fun p => p.1 == k0) = none := by
      rw [List.find?_eq_none]
      intro q hq
      rcases List.mem_map.mp hq with ⟨p, hp, rfl⟩
      by_cases hpk : (p.1 == k) = true
      · simp only [hpk, if_true]
        simp [hke]
      · simp only [hpk]
        simp only [Bool.not_eq_true] at hpk
        rw [if_neg (by simp [hpk])]
        have hne2 : p.1 ≠ k0 := by
          intro hc
          exact habs (hc ▸ List.mem_map_of_mem Prod.fst hp)
        simp [hne2]
    rw [hfind]
    rfl
  · rw [lookupEntry, List.find?_append]
    have h1 : l.find? (fun p => p.1 == k0) = none := by
      rw [List.find?_eq_none]
      intro p hp hc
      exact habs ((eq_of_beq hc) ▸ List.mem_map_of_mem Prod.fst hp)
    rw [h1]
    simp [List.find?, hke]

theorem applyOp_fields (c : LRUCache) (op : CacheOp) :
    (applyOp c op).maxSize = c.maxSize ∧ (applyOp c op).ttl = c.ttl := by
  cases op with
  | get now k =>
    simp only [applyOp, LRUCache.get]
    cases lookupEntry c.entries k with
    | none => exact ⟨rfl, rfl⟩
    | some e =>
      dsimp only
      split
      · exact ⟨rfl, rfl⟩
      · exact ⟨rfl, rfl⟩
  | set now k v => exact lruSet_fields c now k v
  | clear => exact ⟨rfl, rfl⟩

theorem applyOp_bound (c : LRUCache) (op : CacheOp) (hms : 1 ≤ c.maxSize)
    (hle : c.entries.length ≤ c.maxSize) :
    (applyOp c op).entries.length ≤ c.maxSize := by
  cases op with
  | get now k =>
    simp only [applyOp, LRUCache.get]
    cases hlk : lookupEntry c.entries k with
    | none => exact hle
    | some e =>
      dsimp only
      split
      · exact le_trans (eraseEntry_length_le _ _) hle
      · dsimp only
        have h1 := eraseEntry_length_lt c.entries k e hlk
        rw [List.length_append]
        simp only [List.length_singleton]
        omega
  | set now k v =>
    simp only [applyOp, LRUCache.set]
    split
    · rename_i hcap
      cases hc : c.entries with
      | nil =>
        dsimp only
        have h1 := mapSet_length_le ([] : List (String × CacheEntry)) k
          { value := v, timestamp := now }
        simp only [List.length_nil] at h1
        omega
      | cons p rest =>
        dsimp only
        have h1 := mapSet_length_le rest k { value := v, timestamp := now }
        rw [hc] at hle
        simp only [List.length_cons] at hle
        omega
    · rename_i hcap
      have h1 := mapSet_length_le c.entries k { value := v, timestamp := now }
      omega
  | clear =>
    simp [applyOp, LRUCache.clear]

theorem applyOps_bound : ∀ (ops : List CacheOp) (c : LRUCache), 1 ≤ c.maxSize →
    c.entries.length ≤ c.maxSize → (applyOps c ops).entries.length ≤ c.maxSize
  | [], _, _, hle => hle
  | op :: rest, c, hms, hle => by
    rw [applyOps]
    have h1 := applyOp_bound c op hms hle
    have h2 := applyOp_fields c op
    have h3 := applyOps_bound rest (applyOp c op) (by rw [h2.1]; exact hms)
      (by rw [h2.1]; exact h1)
    rw [h2.1] at h3
    exact h3

/-- C9 (amended): the result-cache behaviour, provided the capacity is at
least 1.  (i) From an empty cache, no sequence of get/set/clear operations
ever leaves more than `maxSize` entries.  (ii) A fresh `get` hit returns
the stored value and re-inserts the same entry at the most-recently-used
end of the iteration order.  (iii) A `set` at capacity evicts exactly the
entry at the head of the iteration order — the least-recently-used
position, since hits move entries to the back — so the evicted key (when
distinct from the written key and unique, as `Map` keys are) is absent
afterwards.  (iv) A `get` on an entry strictly older than `ttl`
milliseconds (measured from its stored timestamp, set at insertion)
removes the entry and reports it absent. -/
theorem c9_lru_cache_behaviour :
    (∀ (ops : List CacheOp) (maxSize ttl : Nat), 1 ≤ maxSize →
      (applyOps (emptyCache maxSize ttl) ops).entries.length ≤ maxSize) ∧
    (∀ (c : LRUCache) (now : Nat) (k : String) (e : CacheEntry),
      lookupEntry c.entries k = some e → ¬(now - e.timestamp > c.ttl) →
      LRUCache.get c now k =
        (some e.value, { c with entries := eraseEntry c.entries k ++ [(k, e)] })) ∧
    (∀ (c : LRUCache) (now : Nat) (k k0 : String) (e0 : CacheEntry) (v : JsonTree),
      c.entries.length ≥ c.maxSize → c.entries.head? = some (k0, e0) →
      (k0 == k) = false → (((c.entries.map Prod.fst).tail).contains k0) = false →
      lookupEntry (LRUCache.set c now k v).entries k0 = none) ∧
    (∀ (c : LRUCache) (now : Nat) (k : String) (e : CacheEntry),
      lookupEntry c.entries k = some e → now - e.timestamp > c.ttl →
      LRUCache.get c now k = (none, { c with entries := eraseEntry c.entries k }) ∧
      lookupEntry (eraseEntry c.entries k) k = none) := by
  refine ⟨?_, ?_, ?_, ?_⟩
  · intro ops maxSize ttl hms
    exact applyOps_bound ops (emptyCache maxSize ttl) hms (by simp [emptyCache])
  · intro c now k e hlk hfr
    rw [LRUCache.get, hlk]
    dsimp only
    rw [if_neg hfr]
  · intro c now k k0 e0 v hcap hhead hne htail
    simp only [LRUCache.set]
    rw [if_pos hcap]
    cases hc : c.entries with
    | nil =>
      rw [hc] at hhead
      cases hhead
    | cons p rest =>
      rw [hc] at hhead
      simp only [List.head?_cons, Option.some.injEq] at hhead
      subst hhead
      dsimp only
      apply lookupEntry_mapSet_absent rest k k0 _ hne
      rw [hc] at htail
      simpa using htail
  · intro c now k e hlk hexp
    rw [LRUCache.get, hlk]
    dsimp only
    rw [if_pos hexp]
    exact ⟨rfl, lookupEntry_erase_self c.entries k⟩

/-- C9 (counterexample): with `cacheSize = 0` the bound fails — `set`
finds an empty map, `keys().next()` yields nothing to evict, and the entry
is stored anyway, leaving 1 > 0 entries. -/
theorem c9_counterexample :
    (emptyCache 0 60000).maxSize = 0 ∧
    (LRUCache.set (emptyCache 0 60000) 5 "k" .null).entries.length = 1 :=
  ⟨rfl, rfl⟩

/-- Witness for C9 at concrete caches: a four-operation sequence against
capacity 1; a fresh hit promoting `a` past `b`; a `set` at capacity 2
evicting the head `a`; an expired `get`. -/
theorem c9_lru_cache_behaviour_witness :
    (applyOps (emptyCache 1 10)
      [.set 0 "a" .null, .set 1 "b" (.bool true), .get 2 "a", .clear]).entries.length ≤ 1 ∧
    LRUCache.get
      { entries := [("a", { value := .null, timestamp := 0 }),
                    ("b", { value := .bool true, timestamp := 1 })],
        maxSize := 5, ttl := 10 } 3 "a" =
      (some .null,
        { entries := [("b", { value := .bool true, timestamp := 1 }),
                      ("a", { value := .null, timestamp := 0 })],
          maxSize := 5, ttl := 10 }) ∧
    lookupEntry (LRUCache.set
      { entries := [("a", { value := .null, timestamp := 0 }),
                    ("b", { value := .bool true, timestamp := 1 })],
        maxSize := 2, ttl := 10 } 7 "c" (.num 3)).entries "a" = none ∧
    LRUCache.get
      { entries := [("x", { value := .num 1, timestamp := 0 })],
        maxSize := 5, ttl := 1 } 5 "x" =
      (none, { entries := [], maxSize := 5, ttl := 1 }) := by
  refine ⟨c9_lru_cache_behaviour.1 _ 1 10 (by decide), ?_, ?_, ?_⟩
  · exact c9_lru_cache_behaviour.2.1
      { entries := [("a", { value := .null, timestamp := 0 }),
                    ("b", { value := .bool true, timestamp := 1 })],
        maxSize := 5, ttl := 10 } 3 "a" { value := .null, timestamp := 0 } rfl
      (by decide)
  · exact c9_lru_cache_behaviour.2.2.1
      { entries := [("a", { value := .null, timestamp := 0 }),
                    ("b", { value := .bool true, timestamp := 1 })],
        maxSize := 2, ttl := 10 } 7 "c" "a" { value := .null, timestamp := 0 }
      (.num 3) (by decide) rfl (by decide) (by decide)
  · exact (c9_lru_cache_behaviour.2.2.2
      { entries := [("x", { value := .num 1, timestamp := 0 })],
        maxSize := 5, ttl := 1 } 5 "x" { value := .num 1, timestamp := 0 }
      rfl (by decide)).1

theorem isNullTree_iff (t : JsonTree) : isNullTree t = true ↔ t = .null := by
  cases t <;> simp [isNullTree]

theorem lruSet_length_le_of_mem (c : LRUCache) (now : Nat) (k : String) (v : JsonTree)
    (hmem : k ∈ c.entries.map Prod.fst) :
    (LRUCache.set c now k v).entries.length ≤ c.entries.length := by
  simp only [LRUCache.set]
  split
  · cases hc : c.entries with
    | nil =>
      rw [hc] at hmem
      simp at hmem
    | cons p rest =>
      dsimp only
      have h1 := mapSet_length_le rest k { value := v, timestamp := now }
      simp only [List.length_cons]
      omega
  · have h1 := mapSet_length_of_mem c.entries k { value := v, timestamp := now }
      (by simpa using hmem)
    omega

/-- Characterization of the cache probe when caching is enabled: the
reconfigured cache is consulted; an absent or expired key misses; a stored
JSON `null` misses after promotion; anything else is a hit. -/
theorem cacheProbe_eq (raw : RawInput) (o : StrictJsonOptions) (c : LRUCache)
    (now : Nat) (hc : o.enableCache.getD true = true) :
    cacheProbe raw o c now =
      match lookupEntry c.entries raw.text with
      | none =>
        (none,
          { entries := c.entries
            maxSize := o.cacheSize.getD 1000
            ttl := o.cacheTTL.getD 60000 })
      | some e =>
        if now - e.timestamp > o.cacheTTL.getD 60000 then
          (none,
            { entries := eraseEntry c.entries raw.text
              maxSize := o.cacheSize.getD 1000
              ttl := o.cacheTTL.getD 60000 })
        else if isNullTree e.value then
          (none,
            { entries := eraseEntry c.entries raw.text ++ [(raw.text, e)]
              maxSize := o.cacheSize.getD 1000
              ttl := o.cacheTTL.getD 60000 })
        else
          (some e.value,
            { entries := eraseEntry c.entries raw.text ++ [(raw.text, e)]
              maxSize := o.cacheSize.getD 1000
              ttl := o.cacheTTL.getD 60000 }) := by
  rw [cacheProbe, if_pos hc]
  simp only [LRUCache.get]
  cases hlk : lookupEntry c.entries raw.text with
  | none => rfl
  | some e =>
    dsimp only
    by_cases hexp : now - e.timestamp > o.cacheTTL.getD 60000
    · simp only [if_pos hexp]
    · simp only [if_neg hexp]
      cases hv : e.value <;> simp [isNullTree]

/-- What a successful `parseStrictJson` call guarantees about the cache it
leaves behind (caching enabled): the size check passed, and the result is
stored fresh under the input text — either the probed entry itself (a hit,
never the JSON `null`) or the newly stored entry; when the value is the
JSON `null` the success came from the core parse. -/
theorem parse_success_state (raw : RawInput) (o : StrictJsonOptions) (c c1 : LRUCache)
    (now : Nat) (v : JsonTree) (hc : o.enableCache.getD true = true)
    (h : parseStrictJson raw o c now = (.ok v, c1)) :
    sizeCheckFails raw o = none ∧
    ∃ e : CacheEntry, lookupEntry c1.entries raw.text = some e ∧ e.value = v ∧
      ¬(now - e.timestamp > o.cacheTTL.getD 60000) ∧
      (isNullTree v = true → parseCore raw o = .ok v) := by
  have hsz : sizeCheckFails raw o = none := by
    cases hs : sizeCheckFails raw o with
    | none => rfl
    | some m =>
      rw [parseStrictJson, hs] at h
      simp at h
  refine ⟨hsz, ?_⟩
  rw [parseStrictJson, hsz, afterSizeCheck] at h
  dsimp only at h
  rw [cacheProbe_eq raw o c now hc] at h
  cases hlk : lookupEntry c.entries raw.text with
  | none =>
    rw [hlk] at h
    dsimp only at h
    simp only [hc, if_true] at h
    cases hcore : parseCore raw o with
    | error e => rw [hcore] at h; simp at h
    | ok w =>
      rw [hcore] at h
      simp only [Prod.mk.injEq, Except.ok.injEq] at h
      obtain ⟨rfl, rfl⟩ := h
      refine ⟨{ value := w, timestamp := now }, ?_, rfl, by simp, fun _ => rfl⟩
      exact lruSet_lookup _ now raw.text w
  | some e0 =>
    rw [hlk] at h
    dsimp only at h
    by_cases hexp : now - e0.timestamp > o.cacheTTL.getD 60000
    · rw [if_pos hexp] at h
      dsimp only at h
      simp only [hc, if_true] at h
      cases hcore : parseCore raw o with
      | error e => rw [hcore] at h; simp at h
      | ok w =>
        rw [hcore] at h
        simp only [Prod.mk.injEq, Except.ok.injEq] at h
        obtain ⟨rfl, rfl⟩ := h
        refine ⟨{ value := w, timestamp := now }, ?_, rfl, by simp, fun _ => rfl⟩
        exact lruSet_lookup _ now raw.text w
    · rw [if_neg hexp] at h
      by_cases hnv : isNullTree e0.value = true
      · rw [if_pos hnv] at h
        dsimp only at h
        simp only [hc, if_true] at h
        cases hcore : parseCore raw o with
        | error e => rw [hcore] at h; simp at h
        | ok w =>
          rw [hcore] at h
          simp only [Prod.mk.injEq, Except.ok.injEq] at h
          obtain ⟨rfl, rfl⟩ := h
          refine ⟨{ value := w, timestamp := now }, ?_, rfl, by simp, fun _ => rfl⟩
          exact lruSet_lookup _ now raw.text w
      · rw [if_neg hnv] at h
        dsimp only at h
        simp only [Prod.mk.injEq, Except.ok.injEq] at h
        obtain ⟨rfl, rfl⟩ := h
        refine ⟨e0, ?_, rfl, hexp, ?_⟩
        · exact lookupEntry_erase_append_self c.entries raw.text e0
        · intro hn
          exact absurd hn (by simpa using hnv)

/-- Amended C8: with caching enabled, after a successful parse a second call on
byte-identical input at the same time returns the same value and the cache does
not grow; and provided the value is not the JSON `null`, the second call's
cache probe itself yields the value (the cache-hit branch). When the cached
value IS the JSON `null`, LRUCache.get conflates it with a miss
(`cached !== null`), so the second call re-validates instead of hitting. -/
theorem c8_cache_idempotence (raw : RawInput) (o : StrictJsonOptions) (c c1 : LRUCache)
    (now : Nat) (v : JsonTree) (hc : o.enableCache.getD true = true)
    (h : parseStrictJson raw o c now = (.ok v, c1)) :
    (parseStrictJson raw o c1 now).1 = .ok v ∧
    (parseStrictJson raw o c1 now).2.entries.length ≤ c1.entries.length ∧
    (v ≠ .null → (cacheProbe raw o c1 now).1 = some v) := by
  obtain ⟨hsz, e, hlk, hval, hfr, hnul⟩ := parse_success_state raw o c c1 now v hc h
  by_cases hnv : isNullTree e.value = true
  · -- cached value is the JSON null: the probe misses, the core parse re-runs
    have hvnull : v = JsonTree.null := by
      rw [← hval]; exact (isNullTree_iff e.value).mp hnv
    have hcore : parseCore raw o = .ok v := hnul (by rw [hvnull]; rfl)
    have hrun : parseStrictJson raw o c1 now =
        (.ok v, LRUCache.set
          { entries := eraseEntry c1.entries raw.text ++ [(raw.text, e)],
            maxSize := o.cacheSize.getD 1000, ttl := o.cacheTTL.getD 60000 }
          now raw.text v) := by
      rw [parseStrictJson, hsz, afterSizeCheck]
      dsimp only
      rw [cacheProbe_eq raw o c1 now hc, hlk]
      dsimp only
      rw [if_neg hfr, if_pos hnv]
      dsimp only
      rw [hcore]
      simp only [hc, if_true]
    have hlt := eraseEntry_length_lt c1.entries raw.text e hlk
    have hmem : raw.text ∈
        (eraseEntry c1.entries raw.text ++ [(raw.text, e)]).map Prod.fst := by simp
    have hle := lruSet_length_le_of_mem
      { entries := eraseEntry c1.entries raw.text ++ [(raw.text, e)],
        maxSize := o.cacheSize.getD 1000, ttl := o.cacheTTL.getD 60000 }
      now raw.text v hmem
    refine ⟨by rw [hrun], ?_, fun hvn => absurd hvnull hvn⟩
    rw [hrun]
    simp only [List.length_append, List.length_cons, List.length_nil] at hle ⊢
    omega
  · -- cached value is not null: genuine cache hit
    have hprobe : cacheProbe raw o c1 now =
        (some e.value,
          { entries := eraseEntry c1.entries raw.text ++ [(raw.text, e)],
            maxSize := o.cacheSize.getD 1000, ttl := o.cacheTTL.getD 60000 }) := by
      rw [cacheProbe_eq raw o c1 now hc, hlk]
      dsimp only
      rw [if_neg hfr, if_neg hnv]
    have hrun : parseStrictJson raw o c1 now =
        (.ok e.value,
          { entries := eraseEntry c1.entries raw.text ++ [(raw.text, e)],
            maxSize := o.cacheSize.getD 1000, ttl := o.cacheTTL.getD 60000 }) := by
      rw [parseStrictJson, hsz, afterSizeCheck]
      dsimp only
      rw [cacheProbe_eq raw o c1 now hc, hlk]
      dsimp only
      rw [if_neg hfr, if_neg hnv]
    have hlt := eraseEntry_length_lt c1.entries raw.text e hlk
    refine ⟨by rw [hrun, hval], ?_, fun _ => by rw [hprobe, hval]⟩
    rw [hrun]
    simp only [List.length_append, List.length_cons, List.length_nil]
    omega

/-- Counterexample to C8 as stated: the input `null` parses successfully and is
cached, yet the second call's cache probe reports a miss — `LRUCache.get`
tests `cached !== null`, conflating a stored JSON `null` with absence — so the
second call does NOT take the cache-hit branch and re-runs validation. -/
theorem c8_counterexample :
    (parseStrictJson nullInput {} (emptyCache 1000 60000) 0).1 = .ok .null ∧
    (cacheProbe nullInput {} (parseStrictJson nullInput {} (emptyCache 1000 60000) 0).2 0).1
      = none := by
  constructor <;> rfl

/-- Witness for the amended C8 at the concrete input `{"a":1}`. -/
theorem c8_cache_idempotence_witness :
    (parseStrictJson smallObjInput {}
        (parseStrictJson smallObjInput {} (emptyCache 1000 60000) 0).2 0).1
      = .ok (JsonTree.obj (.cons "a" (.num 1) .nil)) ∧
    (parseStrictJson smallObjInput {}
        (parseStrictJson smallObjInput {} (emptyCache 1000 60000) 0).2 0).2.entries.length
      ≤ (parseStrictJson smallObjInput {} (emptyCache 1000 60000) 0).2.entries.length ∧
    (JsonTree.obj (.cons "a" (.num 1) .nil) ≠ .null →
      (cacheProbe smallObjInput {}
          (parseStrictJson smallObjInput {} (emptyCache 1000 60000) 0).2 0).1
        = some (JsonTree.obj (.cons "a" (.num 1) .nil))) :=
  c8_cache_idempotence smallObjInput {} (emptyCache 1000 60000)
    (parseStrictJson smallObjInput {} (emptyCache 1000 60000) 0).2 0
    (JsonTree.obj (.cons "a" (.num 1) .nil)) rfl rfl
